import Mathlib

/-!
Verification of the repo-agent PR review service.

The Python sources are embedded shallowly:
* Python `str` values are modelled as `List Char` (`PyStr`), so that string
  splitting, stripping and joining can be reasoned about with list lemmas.
  `str.splitlines` is modelled as splitting on `'\n'` (the rarely used extra
  line separators of Python are out of scope), `str.strip` as trimming
  whitespace characters on both ends, `"\n".join` as `joinLines`, and the
  Python substring test `pat in s` as list-infix.
* Fallible GitHub API calls are modelled through `Option` fields of an
  environment record (`none` = the HTTP request failed); calls whose Python
  wrapper re-raises are modelled in the `Except` monad, calls whose wrapper
  catches and returns `None` stay `Option`.
* LLM invocations are opaque text-in/text-out oracles; each invocation is
  recorded in an effect trace together with every publishing call.
-/

/-- Python strings, modelled as their character sequences. -/
abbrev PyStr := List Char

/-- Coercion helper: the character list of a Lean string literal. -/
def str (s : String) : PyStr := s.data

/-- Python `pat in s` (substring containment), as a Bool. -/
def pyIn (pat s : PyStr) : Bool := decide (pat <:+: s)

/-- Python `s.startswith(pre)`. -/
def pyStartswith (s pre : PyStr) : Bool := pre.isPrefixOf s

/-- Python `str.splitlines` restricted to `'\n'` separators:
`""` gives `[]`, a trailing newline produces no trailing empty line. -/
def pySplitlines : PyStr → List PyStr
  | [] => []
  | c :: rest =>
    if c = '\n' then [] :: pySplitlines rest
    else
      match pySplitlines rest with
      | [] => [[c]]
      | l :: ls => (c :: l) :: ls

/-- Python `"\n".join(lines)`. -/
def joinLines : List PyStr → PyStr
  | [] => []
  | l :: ls =>
    match ls with
    | [] => l
    | _ :: _ => l ++ '\n' :: joinLines ls

/-- Python `str.strip()` (default whitespace stripping): drop whitespace on
the left, then on the right. -/
def pyStrip (s : PyStr) : PyStr :=
  (s.dropWhile Char.isWhitespace).rdropWhile Char.isWhitespace

/-! ### `GitHubCommenter.get_reviewed_commit_ids` and the commit-id ledger
(src/github_commenter.py lines 236-251) -/

/-- `COMMIT_ID_START_TAG`. -/
def COMMIT_ID_START_TAG : PyStr := str "<!-- commit_ids_reviewed_start -->"

/-- `COMMIT_ID_END_TAG`. -/
def COMMIT_ID_END_TAG : PyStr := str "<!-- commit_ids_reviewed_end -->"

/-- `get_reviewed_commit_ids`: the stripped nonblank lines of the ledger block. -/
def get_reviewed_commit_ids (block : PyStr) : List PyStr :=
  ((pySplitlines block).map pyStrip).filter (· ≠ [])

/-- The commit-id list computed inside `add_reviewed_commit_id`
(the two `ids` bindings of lines 240-242). -/
def add_reviewed_commit_id_ids (existing_block commit_id : PyStr) : List PyStr :=
  let ids := if existing_block ≠ [] then get_reviewed_commit_ids existing_block else []
  if commit_id ≠ [] ∧ commit_id ∉ ids then ids ++ [commit_id] else ids

/-- `add_reviewed_commit_id`: re-renders the ledger block around the updated id list. -/
def add_reviewed_commit_id (existing_block commit_id : PyStr) : PyStr :=
  COMMIT_ID_START_TAG ++ '\n' :: joinLines (add_reviewed_commit_id_ids existing_block commit_id)
    ++ '\n' :: COMMIT_ID_END_TAG

/-- `get_highest_reviewed_commit_id` (lines 246-251): forward scan keeping the
last PR commit that appears in the reviewed set. -/
def get_highest_reviewed_commit_id (all_commits reviewed : List PyStr) : PyStr :=
  all_commits.foldl (fun highest sha => if sha ∈ reviewed then sha else highest) []

/-! ### Claim C1 -/

theorem foldl_keep_last {α : Type} [DecidableEq α] (p : α → Prop) [DecidablePred p]
    (l : List α) (init : α) :
    l.foldl (fun h a => if p a then a else h) init = (l.filter (fun a => p a)).getLastD init := by
  induction l generalizing init with
  | nil => rfl
  | cons a t ih =>
    simp only [List.foldl_cons]
    rw [ih]
    by_cases h : p a
    · rw [if_pos h, List.filter_cons_of_pos (by simpa using h), List.getLastD_cons]
    · rw [if_neg h, List.filter_cons_of_neg (by simpa using h)]

/-- C1: `get_highest_reviewed_commit_id` returns the last element of
`all_commits` that is a member of the reviewed list (the empty string when no
element is reviewed); with ledger `["c1","c3"]` and history
`["c0","c1","c2","c3","c4"]` it yields `"c3"`, and the result is insensitive
to append order of the ledger. -/
theorem claim_C1 :
    (∀ all_commits reviewed : List PyStr,
        get_highest_reviewed_commit_id all_commits reviewed
          = (all_commits.filter (fun sha => sha ∈ reviewed)).getLastD []) ∧
    (∀ all_commits reviewed : List PyStr, (∀ sha ∈ all_commits, sha ∉ reviewed) →
        get_highest_reviewed_commit_id all_commits reviewed = []) ∧
    get_highest_reviewed_commit_id
        [str "c0", str "c1", str "c2", str "c3", str "c4"] [str "c1", str "c3"] = str "c3" ∧
    get_highest_reviewed_commit_id
        [str "c0", str "c1", str "c2", str "c3", str "c4"] [str "c3", str "c1"] = str "c3" := by
  refine ⟨fun all reviewed => ?_, fun all reviewed h => ?_, by decide, by decide⟩
  · exact foldl_keep_last (fun sha => sha ∈ reviewed) all []
  · rw [get_highest_reviewed_commit_id, foldl_keep_last (fun sha => sha ∈ reviewed) all []]
    have : all.filter (fun sha => decide (sha ∈ reviewed)) = [] := by
      apply List.filter_eq_nil_iff.mpr
      intro a ha
      simpa using h a ha
    rw [this]
    rfl

/-- Witness for C1's hypothesis-bearing conjunct at a concrete input. -/
theorem claim_C1_witness :
    get_highest_reviewed_commit_id [str "a", str "b"] [str "z"] = [] := by
  have h := claim_C1.2.1 [str "a", str "b"] [str "z"] (by decide)
  exact h

/-! ### Claim C4 : ledger maintenance -/

theorem joinLines_cons_cons (a b : PyStr) (t : List PyStr) :
    joinLines (a :: b :: t) = a ++ '\n' :: joinLines (b :: t) := rfl

theorem mem_pySplitlines_no_newline (s : PyStr) :
    ∀ l ∈ pySplitlines s, '\n' ∉ l := by
  induction s with
  | nil => intro l hl; simp [pySplitlines] at hl
  | cons c rest ih =>
    intro l hl
    simp only [pySplitlines] at hl
    by_cases hc : c = '\n'
    · rw [if_pos hc] at hl
      rcases List.mem_cons.mp hl with h | h
      · simp [h]
      · exact ih l h
    · rw [if_neg hc] at hl
      rcases heq : pySplitlines rest with _ | ⟨l₀, ls⟩
      · rw [heq] at hl
        simp only [List.mem_singleton] at hl
        subst hl
        simp only [List.mem_singleton]
        intro h
        exact hc h.symm
      · rw [heq] at hl
        rcases List.mem_cons.mp hl with h | h
        · subst h
          intro hmem
          rcases List.mem_cons.mp hmem with h | h
          · exact hc h.symm
          · exact ih l₀ (heq ▸ List.mem_cons_self l₀ ls) h
        · exact ih l (heq ▸ List.mem_cons_of_mem l₀ h)

theorem pySplitlines_no_newline (s : PyStr) (h : '\n' ∉ s) (hne : s ≠ []) :
    pySplitlines s = [s] := by
  induction s with
  | nil => exact absurd rfl hne
  | cons c rest ih =>
    have hc : c ≠ '\n' := fun hc => h (hc ▸ List.mem_cons_self c rest)
    have hrest : '\n' ∉ rest := fun hm => h (List.mem_cons_of_mem c hm)
    simp only [pySplitlines, if_neg hc]
    rcases hr : rest with _ | ⟨d, t⟩
    · rfl
    · rw [← hr, ih hrest (hr ▸ List.cons_ne_nil d t)]

theorem pySplitlines_append (a rest : PyStr) (h : '\n' ∉ a) :
    pySplitlines (a ++ '\n' :: rest) = a :: pySplitlines rest := by
  induction a with
  | nil => simp [pySplitlines]
  | cons c t ih =>
    have hc : c ≠ '\n' := fun hc => h (hc ▸ List.mem_cons_self c t)
    have ht : '\n' ∉ t := fun hm => h (List.mem_cons_of_mem c hm)
    simp only [List.cons_append, pySplitlines, if_neg hc]
    rw [List.append_eq, ih ht]

theorem dropWhile_eq_self_of_isPre {p : Char → Bool} {l l' : PyStr}
    (hpre : l' <+: l) (h : l.dropWhile p = l) : l'.dropWhile p = l' := by
  rcases l' with _ | ⟨a, t⟩
  · rfl
  · obtain ⟨r, rfl⟩ := hpre
    by_cases hpa : p a
    · exfalso
      rw [List.cons_append, List.dropWhile_cons, if_pos hpa] at h
      have hlen := (List.dropWhile_sublist (p := p) (l := t ++ r)).length_le
      rw [h] at hlen
      simp at hlen
    · rw [List.dropWhile_cons, if_neg hpa]

theorem pyStrip_idem (s : PyStr) : pyStrip (pyStrip s) = pyStrip s := by
  unfold pyStrip
  have h1 : (s.dropWhile Char.isWhitespace).dropWhile Char.isWhitespace
      = s.dropWhile Char.isWhitespace := List.dropWhile_idempotent _ _
  have h2 : ((s.dropWhile Char.isWhitespace).rdropWhile Char.isWhitespace).dropWhile
      Char.isWhitespace = (s.dropWhile Char.isWhitespace).rdropWhile Char.isWhitespace :=
    dropWhile_eq_self_of_isPre ( List.rdropWhile_prefix _ _) h1
  rw [h2, List.rdropWhile_idempotent]

theorem mem_pyStrip {c : Char} {s : PyStr} (h : c ∈ pyStrip s) : c ∈ s := by
  unfold pyStrip at h
  have h1 : c ∈ (s.dropWhile Char.isWhitespace) :=
    ( List.rdropWhile_prefix _ _).sublist.subset h
  exact (List.dropWhile_sublist _).subset h1

theorem ledger_elem_props (block : PyStr) :
    ∀ x ∈ get_reviewed_commit_ids block, x ≠ [] ∧ pyStrip x = x ∧ '\n' ∉ x := by
  intro x hx
  unfold get_reviewed_commit_ids at hx
  obtain ⟨hmem, hne⟩ := List.mem_filter.mp hx
  obtain ⟨y, hy, rfl⟩ := List.mem_map.mp hmem
  refine ⟨by simpa using hne, pyStrip_idem y, ?_⟩
  intro hnl
  exact mem_pySplitlines_no_newline block y hy (mem_pyStrip hnl)

theorem parse_joinLines (ids : List PyStr)
    (h : ∀ x ∈ ids, x ≠ [] ∧ pyStrip x = x ∧ '\n' ∉ x) :
    get_reviewed_commit_ids (joinLines ids) = ids := by
  induction ids with
  | nil => rfl
  | cons a t ih =>
    obtain ⟨hane, hastrip, hanl⟩ := h a (List.mem_cons_self a t)
    rcases t with _ | ⟨b, t'⟩
    · show get_reviewed_commit_ids (joinLines [a]) = [a]
      unfold get_reviewed_commit_ids
      rw [show joinLines [a] = a from rfl, pySplitlines_no_newline a hanl hane]
      simp [hastrip, hane]
    · rw [joinLines_cons_cons]
      unfold get_reviewed_commit_ids
      rw [pySplitlines_append a _ hanl]
      simp only [List.map_cons, List.filter_cons, hastrip]
      rw [if_pos (by simpa using hane)]
      have := ih (fun x hx => h x (List.mem_cons_of_mem a hx))
      unfold get_reviewed_commit_ids at this
      rw [this]

/-- C4: appending a commit id to the ledger is idempotent — an id already in
the ledger leaves the id list unchanged; a new nonempty id is appended at the
end; ids already present are never removed; and re-parsing the rendered
one-id-per-line body recovers exactly the id list (append order preserved). -/
theorem claim_C4 (block cid : PyStr) :
    (cid ∈ get_reviewed_commit_ids block →
        add_reviewed_commit_id_ids block cid = get_reviewed_commit_ids block) ∧
    (cid ≠ [] → cid ∉ get_reviewed_commit_ids block →
        add_reviewed_commit_id_ids block cid = get_reviewed_commit_ids block ++ [cid]) ∧
    (∀ x ∈ get_reviewed_commit_ids block, x ∈ add_reviewed_commit_id_ids block cid) ∧
    (pyStrip cid = cid → '\n' ∉ cid →
        get_reviewed_commit_ids (joinLines (add_reviewed_commit_id_ids block cid))
          = add_reviewed_commit_id_ids block cid) := by
  have hbase : (if block ≠ [] then get_reviewed_commit_ids block else [])
      = get_reviewed_commit_ids block := by
    by_cases hb : block = []
    · subst hb; rfl
    · rw [if_pos hb]
  refine ⟨?_, ?_, ?_, ?_⟩
  · intro hmem
    unfold add_reviewed_commit_id_ids
    rw [hbase, if_neg]
    intro ⟨_, habs⟩
    exact habs hmem
  · intro hne hnm
    unfold add_reviewed_commit_id_ids
    rw [hbase, if_pos ⟨hne, hnm⟩]
  · intro x hx
    unfold add_reviewed_commit_id_ids
    rw [hbase]
    by_cases hc : cid ≠ [] ∧ cid ∉ get_reviewed_commit_ids block
    · rw [if_pos hc]; exact List.mem_append_left _ hx
    · rw [if_neg hc]; exact hx
  · intro hstrip hnl
    apply parse_joinLines
    intro x hx
    unfold add_reviewed_commit_id_ids at hx
    rw [hbase] at hx
    by_cases hc : cid ≠ [] ∧ cid ∉ get_reviewed_commit_ids block
    · rw [if_pos hc] at hx
      rcases List.mem_append.mp hx with h | h
      · exact ledger_elem_props block x h
      · rw [List.mem_singleton.mp h]
        exact ⟨hc.1, hstrip, hnl⟩
    · rw [if_neg hc] at hx
      exact ledger_elem_props block x hx

/-- Witness for C4: a fresh id `"c2"` is appended after `"c1"`, and the
rendered ledger body re-parses to exactly those two ids. -/
theorem claim_C4_witness :
    add_reviewed_commit_id_ids (str "c1") (str "c2") = [str "c1", str "c2"] ∧
    get_reviewed_commit_ids (joinLines (add_reviewed_commit_id_ids (str "c1") (str "c2")))
      = add_reviewed_commit_id_ids (str "c1") (str "c2") ∧
    add_reviewed_commit_id_ids (str "c1\nc2") (str "c2") = [str "c1", str "c2"] := by
  refine ⟨?_, ?_, ?_⟩
  · have h := (claim_C4 (str "c1") (str "c2")).2.1 (by decide) (by decide)
    rw [h]; decide
  · exact (claim_C4 (str "c1") (str "c2")).2.2.2 (by decide) (by decide)
  · have h := (claim_C4 (str "c1\nc2") (str "c2")).1 (by decide)
    rw [h]; decide

/-! ### `PRReviewService._extract_numbered_hunks` (src/pr_review_service.py lines 161-180) -/

/-- Decimal value of a digit string, most significant first. -/
def digitsVal (cs : List Char) : Nat := cs.foldl (fun a c => 10 * a + (c.toNat - '0'.toNat)) 0

/-- The Python `re.search(r"\+(\d+)", line)` used on hunk headers: scan for the
first `'+'` that is immediately followed by a digit and return the value of the
maximal digit run after it. -/
def findPlusNat : List Char → Option Nat
  | [] => none
  | c :: rest =>
    if c = '+' then
      match rest with
      | [] => none
      | d :: _ =>
        if d.isDigit then some (digitsVal (rest.takeWhile Char.isDigit))
        else findPlusNat rest
    else findPlusNat rest

/-- The character list of `Nat.repr n` (the Python rendering `f"{n}"`). -/
def pyReprNat (n : Nat) : PyStr := (Nat.repr n).data

/-- One annotated line of `_extract_numbered_hunks` output, structured.
`renderAnn` maps it to the exact text the Python f-strings produce. -/
inductive AnnLine where
  | header (text : PyStr)
  | added (n : Nat) (content : PyStr)
  | removed (content : PyStr)
  | context (n : Nat) (content : PyStr)
deriving DecidableEq

/-- The rendered text of one annotated line:
`f"{new_line}:+{line[1:]}"`, `f"-: {line[1:]}"`, `f"{new_line}: {...}"`,
or a hunk header echoed verbatim. -/
def renderAnn : AnnLine → PyStr
  | .header t => t
  | .added n c => pyReprNat n ++ ':' :: '+' :: c
  | .removed c => '-' :: ':' :: ' ' :: c
  | .context n c => pyReprNat n ++ ':' :: ' ' :: c

/-- The annotated line the loop body of `_extract_numbered_hunks` appends for
`line` when the running new-file counter is `n` (lines 167-179). -/
def annElem (n : Nat) (line : PyStr) : AnnLine :=
  if pyStartswith line (str "@@") then .header line
  else if pyStartswith line (str "+") then .added n (line.drop 1)
  else if pyStartswith line (str "-") then .removed (line.drop 1)
  else .context n (if pyStartswith line (str " ") then line.drop 1 else line)

/-- The new-file counter after the loop body processes `line` with counter `n`:
a hunk header resets it to the regex match (0 if none), an added or context
line increments it, a removed line leaves it unchanged. -/
def annNext (n : Nat) (line : PyStr) : Nat :=
  if pyStartswith line (str "@@") then (findPlusNat line).getD 0
  else if pyStartswith line (str "+") then n + 1
  else if pyStartswith line (str "-") then n
  else n + 1

/-- One iteration of the `for line in patch.splitlines()` loop: update the
counter and append the annotated line. -/
def annStep (st : Nat × List AnnLine) (line : PyStr) : Nat × List AnnLine :=
  (annNext st.1 line, st.2 ++ [annElem st.1 line])

/-- The annotated lines of a patch: the loop starting from `new_line = 0`
and an empty `numbered_lines` accumulator. -/
def annotLines (patch : PyStr) : List AnnLine :=
  ((pySplitlines patch).foldl annStep (0, [])).2

/-- `_extract_numbered_hunks`: empty input short-circuits to `""`; otherwise
the annotated lines are rendered and joined with newlines. -/
def extract_numbered_hunks (patch : PyStr) : PyStr :=
  if patch = [] then [] else joinLines ((annotLines patch).map renderAnn)

/-- The hunk header `@@ -a,b +c,d @@` as its character sequence. -/
def mkHunkHeader (a b c d : Nat) : PyStr :=
  '@' :: '@' :: ' ' :: '-' ::
    (pyReprNat a ++ ',' :: (pyReprNat b ++ ' ' :: '+' ::
      (pyReprNat c ++ ',' :: (pyReprNat d ++ [' ', '@', '@']))))

/-- Count of added-plus-context lines (the lines that advance the counter). -/
def countAC (body : List PyStr) : Nat :=
  (body.filter (fun l => !(pyStartswith l (str "-")))).length

/-- `ann n body`: the annotated lines produced by the loop over `body` with
initial counter `n` (accumulator split off for reasoning). -/
def ann (n : Nat) (body : List PyStr) : List AnnLine :=
  (body.foldl annStep (n, [])).2

/-! ### Claim C2 : patches without hunk headers -/

theorem pySplitlines_eq_nil_iff (s : PyStr) : pySplitlines s = [] ↔ s = [] := by
  constructor
  · intro h
    rcases s with _ | ⟨c, rest⟩
    · rfl
    · exfalso
      simp only [pySplitlines] at h
      by_cases hc : c = '\n'
      · rw [if_pos hc] at h; exact List.cons_ne_nil _ _ h
      · rw [if_neg hc] at h
        rcases heq : pySplitlines rest with _ | ⟨l, ls⟩ <;> rw [heq] at h <;>
          exact List.cons_ne_nil _ _ h
  · intro h; subst h; rfl

theorem foldl_ann_acc (body : List PyStr) :
    ∀ n (acc : List AnnLine),
      (body.foldl annStep (n, acc)).2 = acc ++ (body.foldl annStep (n, [])).2 := by
  induction body with
  | nil => intro n acc; simp
  | cons l t ih =>
    intro n acc
    simp only [List.foldl_cons, annStep]
    rw [ih _ (acc ++ [annElem n l]), ih _ ([] ++ [annElem n l])]
    simp

theorem ann_cons (n : Nat) (l : PyStr) (t : List PyStr) :
    ann n (l :: t) = annElem n l :: ann (annNext n l) t := by
  unfold ann
  simp only [List.foldl_cons, annStep]
  rw [foldl_ann_acc]
  simp

theorem ann_length (n : Nat) (body : List PyStr) : (ann n body).length = body.length := by
  induction body generalizing n with
  | nil => rfl
  | cons l t ih => rw [ann_cons, List.length_cons, ih, List.length_cons]

theorem mem_ann_shape (n : Nat) (body : List PyStr) :
    ∀ x ∈ ann n body, ∃ m l, l ∈ body ∧ x = annElem m l := by
  induction body generalizing n with
  | nil => intro x hx; simp [ann] at hx
  | cons l t ih =>
    intro x hx
    rw [ann_cons] at hx
    rcases List.mem_cons.mp hx with h | h
    · exact ⟨n, l, List.mem_cons_self l t, h⟩
    · obtain ⟨m, l', hl', rfl⟩ := ih (annNext n l) x h
      exact ⟨m, l', List.mem_cons_of_mem l hl', rfl⟩

theorem pyStartswith_nil_false (pre : PyStr) (h : pre ≠ []) :
    pyStartswith [] pre = false := by
  rcases pre with _ | ⟨c, t⟩
  · exact absurd rfl h
  · rfl

theorem renderAnn_annElem_ne_nil (n : Nat) (l : PyStr) : renderAnn (annElem n l) ≠ [] := by
  unfold annElem
  by_cases h1 : pyStartswith l (str "@@")
  · rw [if_pos h1]
    show l ≠ []
    intro hl
    subst hl
    rw [pyStartswith_nil_false (str "@@") (by decide)] at h1
    exact Bool.false_ne_true h1
  · rw [if_neg h1]
    by_cases h2 : pyStartswith l (str "+")
    · rw [if_pos h2]; simp [renderAnn]
    · rw [if_neg h2]
      by_cases h3 : pyStartswith l (str "-")
      · rw [if_pos h3]; simp [renderAnn]
      · rw [if_neg h3]; simp [renderAnn]

theorem joinLines_ne_nil (ls : List PyStr) (hne : ls ≠ []) (h : ∀ x ∈ ls, x ≠ []) :
    joinLines ls ≠ [] := by
  rcases ls with _ | ⟨a, t⟩
  · exact absurd rfl hne
  · rcases t with _ | ⟨b, t'⟩
    · exact h a (List.mem_cons_self a [])
    · rw [joinLines_cons_cons]
      simp

/-- C2 counterexample: the one-line patch `"+x"` contains no line beginning
with `"@@"`, yet `_extract_numbered_hunks` renders the numbered line `"0:+x"`,
which is not empty. -/
theorem claim_C2_counterexample :
    pySplitlines (str "+x") = [str "+x"] ∧
    pyStartswith (str "+x") (str "@@") = false ∧
    extract_numbered_hunks (str "+x") = str "0:+x" ∧
    extract_numbered_hunks (str "+x") ≠ [] := by
  refine ⟨by decide, by decide, ?_, ?_⟩ <;> decide

/-- C2 amended: the diff annotation is empty exactly for the empty patch; a
nonempty patch — even one with no `"@@"` hunk header — always produces at
least one (numbered or echoed) line. -/
theorem claim_C2 (patch : PyStr) : extract_numbered_hunks patch = [] ↔ patch = [] := by
  constructor
  · intro h
    by_contra hne
    unfold extract_numbered_hunks at h
    rw [if_neg hne] at h
    have hsplit : pySplitlines patch ≠ [] :=
      fun hx => hne ((pySplitlines_eq_nil_iff patch).mp hx)
    have hlen : (annotLines patch).length = (pySplitlines patch).length := ann_length 0 _
    have hann : annotLines patch ≠ [] := by
      intro hx
      rw [hx] at hlen
      exact hsplit (List.length_eq_zero.mp hlen.symm)
    have hmap : ((annotLines patch).map renderAnn) ≠ [] := by
      simpa using hann
    refine joinLines_ne_nil _ hmap ?_ h
    intro x hx
    obtain ⟨y, hy, rfl⟩ := List.mem_map.mp hx
    obtain ⟨m, l, _, rfl⟩ := mem_ann_shape 0 (pySplitlines patch) y hy
    exact renderAnn_annElem_ne_nil m l
  · intro h; subst h; rfl

/-! ### Claim C3 : hunk numbering -/

/-- Reference decimal rendering: digits of `n`, most significant first. -/
def natDigs (n : Nat) : List Char :=
  if n < 10 then [Nat.digitChar n]
  else natDigs (n / 10) ++ [Nat.digitChar (n % 10)]
termination_by n
decreasing_by exact Nat.div_lt_self (by omega) (by omega)

theorem toDigitsCore_eq (fuel : Nat) :
    ∀ (n : Nat) (ds : List Char), n < fuel →
      Nat.toDigitsCore 10 fuel n ds = natDigs n ++ ds := by
  induction fuel with
  | zero => intro n ds h; omega
  | succ fuel ih =>
    intro n ds h
    rw [Nat.toDigitsCore]
    by_cases h10 : n / 10 = 0
    · have hlt : n < 10 := by omega
      rw [if_pos h10, natDigs, if_pos hlt, Nat.mod_eq_of_lt hlt]
      rfl
    · have hge : ¬ n < 10 := by omega
      have hdiv : n / 10 < fuel := by
        have hlt : n / 10 < n := Nat.div_lt_self (by omega) (by omega)
        omega
      rw [if_neg h10, ih (n / 10) _ hdiv]
      conv_rhs => rw [natDigs, if_neg hge]
      rw [List.append_assoc]
      rfl

theorem pyReprNat_eq (n : Nat) : pyReprNat n = natDigs n := by
  unfold pyReprNat Nat.repr Nat.toDigits
  rw [toDigitsCore_eq (n + 1) n [] (Nat.lt_succ_self n)]
  simp [List.asString]

theorem digitChar_isDigit : ∀ m, m < 10 → (Nat.digitChar m).isDigit = true := by decide

theorem digitChar_val : ∀ m, m < 10 → (Nat.digitChar m).toNat - '0'.toNat = m := by decide

theorem natDigs_ne_nil (n : Nat) : natDigs n ≠ [] := by
  rw [natDigs]
  by_cases h : n < 10
  · rw [if_pos h]; simp
  · rw [if_neg h]; simp

theorem natDigs_all_digit (n : Nat) : ∀ c ∈ natDigs n, c.isDigit = true := by
  induction n using Nat.strong_induction_on with
  | _ n ih =>
    rw [natDigs]
    by_cases h : n < 10
    · rw [if_pos h]
      intro c hc
      rw [List.mem_singleton.mp hc]
      exact digitChar_isDigit n h
    · rw [if_neg h]
      intro c hc
      rcases List.mem_append.mp hc with h1 | h1
      · exact ih (n / 10) (Nat.div_lt_self (by omega) (by omega)) c h1
      · rw [List.mem_singleton.mp h1]
        exact digitChar_isDigit _ (Nat.mod_lt n (by omega))

theorem digitsVal_append_singleton (l : List Char) (c : Char) :
    digitsVal (l ++ [c]) = 10 * digitsVal l + (c.toNat - '0'.toNat) := by
  unfold digitsVal
  rw [List.foldl_append]
  rfl

theorem digitsVal_natDigs (n : Nat) : digitsVal (natDigs n) = n := by
  induction n using Nat.strong_induction_on with
  | _ n ih =>
    rw [natDigs]
    by_cases h : n < 10
    · rw [if_pos h]
      show digitsVal ([] ++ [Nat.digitChar n]) = n
      rw [digitsVal_append_singleton, digitChar_val n h]
      simp [digitsVal]
    · rw [if_neg h, digitsVal_append_singleton,
        ih (n / 10) (Nat.div_lt_self (by omega) (by omega)),
        digitChar_val (n % 10) (Nat.mod_lt n (by omega))]
      omega

theorem takeWhile_append_not (p : Char → Bool) (l r : List Char) (x : Char)
    (hl : ∀ c ∈ l, p c = true) (hx : p x = false) :
    ((l ++ x :: r).takeWhile p) = l := by
  induction l with
  | nil => simp [List.takeWhile_cons, hx]
  | cons c t ih =>
    have hc : p c = true := hl c (List.mem_cons_self c t)
    simp only [List.cons_append, List.takeWhile_cons, hc, if_true]
    rw [ih (fun y hy => hl y (List.mem_cons_of_mem c hy))]

theorem findPlusNat_cons_ne (ch : Char) (rest : List Char) (h : ch ≠ '+') :
    findPlusNat (ch :: rest) = findPlusNat rest := by
  simp only [findPlusNat]
  rw [if_neg h]

theorem findPlusNat_skip (l r : List Char) (h : ∀ c ∈ l, c ≠ '+') :
    findPlusNat (l ++ r) = findPlusNat r := by
  induction l with
  | nil => rfl
  | cons c t ih =>
    rw [List.cons_append, findPlusNat_cons_ne c _ (h c (List.mem_cons_self c t))]
    exact ih (fun y hy => h y (List.mem_cons_of_mem c hy))

theorem isDigit_ne_plus (c : Char) (h : c.isDigit = true) : c ≠ '+' := by
  intro heq
  subst heq
  exact absurd h (by decide)

theorem findPlusNat_mkHunkHeader (a b c d : Nat) :
    findPlusNat (mkHunkHeader a b c d) = some c := by
  unfold mkHunkHeader
  rw [pyReprNat_eq, pyReprNat_eq, pyReprNat_eq, pyReprNat_eq]
  rw [findPlusNat_cons_ne _ _ (by decide), findPlusNat_cons_ne _ _ (by decide),
    findPlusNat_cons_ne _ _ (by decide), findPlusNat_cons_ne _ _ (by decide)]
  rw [findPlusNat_skip (natDigs a) _
    (fun y hy => isDigit_ne_plus y (natDigs_all_digit a y hy))]
  rw [findPlusNat_cons_ne _ _ (by decide)]
  rw [findPlusNat_skip (natDigs b) _
    (fun y hy => isDigit_ne_plus y (natDigs_all_digit b y hy))]
  rw [findPlusNat_cons_ne _ _ (by decide)]
  obtain ⟨d0, ds, hd⟩ := List.exists_cons_of_ne_nil (natDigs_ne_nil c)
  have hd0 : d0.isDigit = true := natDigs_all_digit c d0 (hd ▸ List.mem_cons_self d0 ds)
  rw [hd, List.cons_append]
  simp only [findPlusNat]
  rw [if_pos trivial, if_pos hd0]
  have htake : List.takeWhile Char.isDigit
      (d0 :: (ds ++ ',' :: (natDigs d ++ [' ', '@', '@']))) = d0 :: ds := by
    rw [show d0 :: (ds ++ ',' :: (natDigs d ++ [' ', '@', '@']))
        = (d0 :: ds) ++ ',' :: (natDigs d ++ [' ', '@', '@']) from rfl]
    apply takeWhile_append_not
    · intro y hy
      exact natDigs_all_digit c y (hd ▸ hy)
    · decide
  rw [htake, ← hd, digitsVal_natDigs]

theorem pyStartswith_cons_single (c b : Char) (t : PyStr) :
    pyStartswith (b :: t) [c] = (c == b) := by
  simp [pyStartswith, List.isPrefixOf]

theorem startswith_plus_shape (l : PyStr) (h : pyStartswith l (str "+") = true) :
    ∃ t, l = '+' :: t := by
  cases l with
  | nil => exact absurd h (by decide)
  | cons b t =>
    rw [show str "+" = ['+'] from rfl, pyStartswith_cons_single] at h
    have hb : '+' = b := by simpa using h
    exact ⟨t, by rw [← hb]⟩

theorem plus_not_minus (l : PyStr) (h : pyStartswith l (str "+") = true) :
    pyStartswith l (str "-") = false := by
  obtain ⟨t, rfl⟩ := startswith_plus_shape l h
  rw [show str "-" = ['-'] from rfl, pyStartswith_cons_single]
  decide

theorem countAC_cons (l : PyStr) (t : List PyStr) :
    countAC (l :: t) = (if pyStartswith l (str "-") = true then 0 else 1) + countAC t := by
  unfold countAC
  rw [List.filter_cons]
  by_cases h : pyStartswith l (str "-")
  · simp [h]
  · simp [h, Nat.add_comm]

theorem foldl_ann_fst (body : List PyStr) :
    ∀ (n : Nat) (acc : List AnnLine), (∀ l ∈ body, pyStartswith l (str "@@") = false) →
      (body.foldl annStep (n, acc)).1 = n + countAC body := by
  induction body with
  | nil => intro n acc _; simp [countAC]
  | cons l t ih =>
    intro n acc h
    have hl := h l (List.mem_cons_self l t)
    simp only [List.foldl_cons, annStep]
    rw [ih _ _ (fun y hy => h y (List.mem_cons_of_mem l hy)), countAC_cons]
    unfold annNext
    simp only [hl, Bool.false_eq_true, if_false]
    by_cases hp : pyStartswith l (str "+")
    · simp only [hp, if_true, plus_not_minus l hp, Bool.false_eq_true, if_false]
      omega
    · by_cases hm : pyStartswith l (str "-")
      · simp only [hp, Bool.false_eq_true, if_false, hm, if_true]
        omega
      · simp only [hp, hm, Bool.false_eq_true, if_false]
        omega

theorem ann_get (body : List PyStr) :
    ∀ (c i : Nat) (l : PyStr), (∀ x ∈ body, pyStartswith x (str "@@") = false) →
      body[i]? = some l →
      (ann c body)[i]? = some (annElem (c + countAC (body.take i)) l) := by
  induction body with
  | nil => intro c i l _ h; simp at h
  | cons hd t ih =>
    intro c i l hno hval
    rw [ann_cons]
    cases i with
    | zero =>
      simp only [List.getElem?_cons_zero, Option.some.injEq] at hval
      subst hval
      simp [countAC]
    | succ i =>
      simp only [List.getElem?_cons_succ] at hval ⊢
      rw [ih (annNext c hd) i l (fun y hy => hno y (List.mem_cons_of_mem hd hy)) hval]
      have hhd := hno hd (List.mem_cons_self hd t)
      congr 2
      rw [List.take_succ_cons, countAC_cons]
      unfold annNext
      simp only [hhd, Bool.false_eq_true, if_false]
      by_cases hp : pyStartswith hd (str "+")
      · simp only [hp, if_true, plus_not_minus hd hp, Bool.false_eq_true, if_false]
        omega
      · by_cases hm : pyStartswith hd (str "-")
        · simp only [hp, Bool.false_eq_true, if_false, hm, if_true]
          omega
        · simp only [hp, hm, Bool.false_eq_true, if_false]
          omega

theorem mkHunkHeader_startswith (a b c d : Nat) :
    pyStartswith (mkHunkHeader a b c d) (str "@@") = true := rfl

/-- C3: a hunk header `@@ -a,b +c,d @@` resets the running new-file counter to
`c` and is echoed into the output; within a hunk body free of further headers,
the annotation has one entry per body line, the final counter equals `c` plus
the number of added/context lines, every added line at index `i` is numbered
`c` plus the count of preceding added and context lines (so numbers are
1-based exactly as GitHub's `+c` start is), context lines likewise, and a
removed line is rendered with no new-file position and does not advance the
counter. -/
theorem claim_C3 :
    (∀ (st : Nat × List AnnLine) (a b c d : Nat),
        annStep st (mkHunkHeader a b c d)
          = (c, st.2 ++ [AnnLine.header (mkHunkHeader a b c d)])) ∧
    (∀ (c : Nat) (body : List PyStr),
        (∀ l ∈ body, pyStartswith l (str "@@") = false) →
        (ann c body).length = body.length ∧
        (body.foldl annStep (c, [])).1 = c + countAC body ∧
        (∀ i l, body[i]? = some l →
          (pyStartswith l (str "+") = true →
            (ann c body)[i]? = some (AnnLine.added (c + countAC (body.take i)) (l.drop 1))) ∧
          (pyStartswith l (str "-") = true →
            (ann c body)[i]? = some (AnnLine.removed (l.drop 1))) ∧
          (pyStartswith l (str "+") = false → pyStartswith l (str "-") = false →
            (ann c body)[i]? = some (AnnLine.context (c + countAC (body.take i))
              (if pyStartswith l (str " ") then l.drop 1 else l))))) := by
  constructor
  · intro st a b c d
    unfold annStep annNext annElem
    rw [mkHunkHeader_startswith a b c d]
    simp only [if_true, findPlusNat_mkHunkHeader, Option.getD_some]
  · intro c body hno
    refine ⟨ann_length c body, foldl_ann_fst body c [] hno, ?_⟩
    intro i l hval
    have hmem : l ∈ body := by
      obtain ⟨hlt, rfl⟩ := List.getElem?_eq_some.mp hval
      exact List.getElem_mem hlt
    have hat := ann_get body c i l hno hval
    have hl := hno l hmem
    refine ⟨fun hp => ?_, fun hm => ?_, fun hp hm => ?_⟩
    · rw [hat]
      unfold annElem
      simp only [hl, Bool.false_eq_true, if_false, hp, if_true]
    · rw [hat]
      unfold annElem
      have hp : pyStartswith l (str "+") = false := by
        by_cases h : pyStartswith l (str "+")
        · rw [plus_not_minus l h] at hm
          exact absurd hm (by decide)
        · exact Bool.not_eq_true _ ▸ (by simpa using h)
      simp only [hl, Bool.false_eq_true, if_false, hp, hm, if_true]
    · rw [hat]
      unfold annElem
      simp only [hl, Bool.false_eq_true, if_false, hp, hm]

/-- Witness for C3: the header `@@ -1,2 +5,3 @@` resets the counter to 5, and
in the body `["+a", " b", "-c", "+d"]` the added line at index 3 is numbered
5 + 2 (two preceding added/context lines; the removed line does not count). -/
theorem claim_C3_witness :
    annStep (0, []) (mkHunkHeader 1 2 5 3)
      = (5, [AnnLine.header (mkHunkHeader 1 2 5 3)]) ∧
    (ann 5 [str "+a", str " b", str "-c", str "+d"])[3]?
      = some (AnnLine.added 7 (str "d")) ∧
    (ann 5 [str "+a", str " b", str "-c", str "+d"])[2]?
      = some (AnnLine.removed (str "c")) := by
  refine ⟨claim_C3.1 (0, []) 1 2 5 3, ?_, ?_⟩
  · have h := ((claim_C3.2 5 [str "+a", str " b", str "-c", str "+d"]
      (by decide)).2.2 3 (str "+d") (by decide)).1 (by decide)
    exact h.trans (by decide)
  · have h := ((claim_C3.2 5 [str "+a", str " b", str "-c", str "+d"]
      (by decide)).2.2 2 (str "-c") (by decide)).2.1 (by decide)
    exact h.trans (by decide)

/-! ### Claim C5 : upsert-by-tag over the GitHub comment store
(src/github_commenter.py lines 66-83) -/

/-- A GitHub issue comment: numeric id and body text. -/
structure IComment where
  id : Nat
  body : PyStr
deriving DecidableEq

/-- The comment store of one PR, with the id GitHub will assign next. -/
structure CommentStore where
  comments : List IComment
  nextId : Nat
deriving DecidableEq

/-- `create_issue_comment` (POST): append a fresh comment. -/
def create_issue_comment (s : CommentStore) (body : PyStr) : CommentStore :=
  { comments := s.comments ++ [⟨s.nextId, body⟩], nextId := s.nextId + 1 }

/-- `update_issue_comment` (PATCH): replace the body of the comment with the
given id, in place. -/
def update_issue_comment (s : CommentStore) (comment_id : Nat) (body : PyStr) : CommentStore :=
  { s with comments :=
      s.comments.map (fun c => if c.id = comment_id then ⟨c.id, body⟩ else c) }

/-- `upsert_issue_comment_by_tag` (lines 78-83): update the first listed
comment whose body contains the tag, else create a new one. -/
def upsert_issue_comment_by_tag (s : CommentStore) (body tag : PyStr) : CommentStore :=
  match s.comments.find? (fun c => pyIn tag c.body) with
  | some c => update_issue_comment s c.id body
  | none => create_issue_comment s body

/-- Number of comments on the PR whose body contains the tag. -/
def countTagged (s : CommentStore) (tag : PyStr) : Nat :=
  s.comments.countP (fun c => pyIn tag c.body)

/-- Well-formedness GitHub guarantees: comment ids are distinct and below the
next id to be assigned. -/
def storeWF (s : CommentStore) : Prop :=
  (s.comments.map IComment.id).Nodup ∧ ∀ c ∈ s.comments, c.id < s.nextId

theorem storeWF_create (s : CommentStore) (body : PyStr) (h : storeWF s) :
    storeWF (create_issue_comment s body) := by
  obtain ⟨hnd, hlt⟩ := h
  constructor
  · rw [create_issue_comment, List.map_append, List.nodup_append]
    refine ⟨hnd, List.nodup_singleton _, ?_⟩
    intro x hx hy
    simp only [List.map_cons, List.map_nil, List.mem_singleton] at hy
    obtain ⟨c, hc, rfl⟩ := List.mem_map.mp hx
    exact absurd hy (Nat.ne_of_lt (hlt c hc))
  · intro c hc
    rcases List.mem_append.mp hc with h | h
    · exact Nat.lt_succ_of_lt (hlt c h)
    · rw [List.mem_singleton.mp h]
      exact Nat.lt_succ_self _

theorem storeWF_update (s : CommentStore) (cid : Nat) (body : PyStr) (h : storeWF s) :
    storeWF (update_issue_comment s cid body) := by
  obtain ⟨hnd, hlt⟩ := h
  have hids : (update_issue_comment s cid body).comments.map IComment.id
      = s.comments.map IComment.id := by
    rw [update_issue_comment, List.map_map]
    apply List.map_congr_left
    intro c _
    by_cases hc : c.id = cid <;> simp [hc]
  constructor
  · rw [hids]; exact hnd
  · intro c hc
    obtain ⟨c₀, hc₀, rfl⟩ := List.mem_map.mp hc
    by_cases h0 : c₀.id = cid <;> simp only [h0, if_true, if_false, reduceIte] <;>
      first
        | exact hlt c₀ hc₀
        | exact h0 ▸ hlt c₀ hc₀

theorem countTagged_update_found (s : CommentStore) (tag body : PyStr) (c : IComment)
    (hwf : storeWF s)
    (hfind : s.comments.find? (fun x => pyIn tag x.body) = some c)
    (htag : pyIn tag body = true) :
    countTagged (update_issue_comment s c.id body) tag = countTagged s tag := by
  have hcmem : c ∈ s.comments := List.mem_of_find?_eq_some hfind
  have hctag : pyIn tag c.body = true :=
    List.find?_some (p := fun x : IComment => pyIn tag x.body) hfind
  unfold countTagged update_issue_comment
  rw [List.countP_map]
  apply List.countP_congr
  intro x hx
  by_cases hxc : x.id = c.id
  · have hxeq : x = c :=
      List.inj_on_of_nodup_map hwf.1 hx hcmem hxc
    subst hxeq
    simp [hxc, htag, hctag, Function.comp]
  · simp [hxc, Function.comp]

theorem upsert_countTagged (s : CommentStore) (body tag : PyStr)
    (hwf : storeWF s) (htag : pyIn tag body = true) (hcount : countTagged s tag ≤ 1) :
    countTagged (upsert_issue_comment_by_tag s body tag) tag = 1 ∧
    storeWF (upsert_issue_comment_by_tag s body tag) := by
  unfold upsert_issue_comment_by_tag
  rcases hfind : s.comments.find? (fun x => pyIn tag x.body) with _ | c
  · rw [hfind]
    have hnone := List.find?_eq_none.mp hfind
    have hzero : countTagged s tag = 0 := by
      unfold countTagged
      rw [List.countP_eq_zero]
      intro x hx
      exact hnone x hx
    refine ⟨?_, storeWF_create s body hwf⟩
    unfold countTagged create_issue_comment
    simp only [List.countP_append]
    have : countTagged s tag = s.comments.countP (fun c => pyIn tag c.body) := rfl
    rw [← this, hzero]
    simp [List.countP_cons, htag]
  · rw [hfind]
    have hcmem : c ∈ s.comments := List.mem_of_find?_eq_some hfind
    have hctag : pyIn tag c.body = true :=
      List.find?_some (p := fun x : IComment => pyIn tag x.body) hfind
    have hone : countTagged s tag = 1 := by
      have hge : 1 ≤ countTagged s tag := by
        unfold countTagged
        rw [List.countP_eq_length_filter]
        have : c ∈ s.comments.filter (fun x => pyIn tag x.body) :=
          List.mem_filter.mpr ⟨hcmem, hctag⟩
        exact List.length_pos.mpr (List.ne_nil_of_mem this)
      omega
    rw [countTagged_update_found s tag body c hwf hfind htag, hone]
    exact ⟨rfl, storeWF_update s c.id body hwf⟩

/-- C5: upsert-by-tag updates the first tagged comment in place and creates
only when none is tagged; starting from a well-formed store with at most one
tagged comment and a body containing the tag, one upsert leaves exactly one
tagged comment, a second upsert still leaves exactly one and does not change
the number of comments (it updates rather than duplicates); the comment count
grows only in the create case. -/
theorem claim_C5 (s : CommentStore) (body tag : PyStr)
    (hwf : storeWF s) (htag : pyIn tag body = true) (hcount : countTagged s tag ≤ 1) :
    countTagged (upsert_issue_comment_by_tag s body tag) tag = 1 ∧
    countTagged (upsert_issue_comment_by_tag
      (upsert_issue_comment_by_tag s body tag) body tag) tag = 1 ∧
    (upsert_issue_comment_by_tag
        (upsert_issue_comment_by_tag s body tag) body tag).comments.length
      = (upsert_issue_comment_by_tag s body tag).comments.length ∧
    ((∃ c ∈ s.comments, pyIn tag c.body = true) →
        (upsert_issue_comment_by_tag s body tag).comments.length = s.comments.length) ∧
    ((∀ c ∈ s.comments, pyIn tag c.body = false) →
        (upsert_issue_comment_by_tag s body tag).comments.length = s.comments.length + 1) := by
  obtain ⟨h1, hwf1⟩ := upsert_countTagged s body tag hwf htag hcount
  obtain ⟨h2, _⟩ := upsert_countTagged _ body tag hwf1 htag (by omega)
  refine ⟨h1, h2, ?_, ?_, ?_⟩
  · set t := upsert_issue_comment_by_tag s body tag with ht
    show (upsert_issue_comment_by_tag t body tag).comments.length = t.comments.length
    unfold upsert_issue_comment_by_tag
    rcases hfind : t.comments.find? (fun x => pyIn tag x.body) with _ | c
    · exfalso
      have hnone := List.find?_eq_none.mp hfind
      have hzero : countTagged t tag = 0 := by
        unfold countTagged
        rw [List.countP_eq_zero]
        intro x hx
        exact hnone x hx
      omega
    · rw [hfind]
      unfold update_issue_comment
      simp
  · intro ⟨c, hc, hctag⟩
    unfold upsert_issue_comment_by_tag
    rcases hfind : s.comments.find? (fun x => pyIn tag x.body) with _ | c'
    · exfalso
      exact absurd hctag (by simpa using (List.find?_eq_none.mp hfind) c hc)
    · rw [hfind]
      unfold update_issue_comment
      simp
  · intro hall
    unfold upsert_issue_comment_by_tag
    rcases hfind : s.comments.find? (fun x => pyIn tag x.body) with _ | c'
    · rw [hfind]
      unfold create_issue_comment
      simp
    · exfalso
      have hc2 : pyIn tag c'.body = true :=
        List.find?_some (p := fun x : IComment => pyIn tag x.body) hfind
      rw [hall c' (List.mem_of_find?_eq_some hfind)] at hc2
      exact absurd hc2 (by decide)

/-- Witness for C5 at a concrete store: one untagged pre-existing comment,
tag `"<t>"`, body `"<t> hello"`. -/
theorem claim_C5_witness :
    countTagged (upsert_issue_comment_by_tag
      ⟨[⟨0, str "unrelated"⟩], 1⟩ (str "<t> hello") (str "<t>")) (str "<t>") = 1 ∧
    countTagged (upsert_issue_comment_by_tag (upsert_issue_comment_by_tag
      ⟨[⟨0, str "unrelated"⟩], 1⟩ (str "<t> hello") (str "<t>"))
      (str "<t> hello") (str "<t>")) (str "<t>") = 1 := by
  have h := claim_C5 ⟨[⟨0, str "unrelated"⟩], 1⟩ (str "<t> hello") (str "<t>")
    (⟨by decide, by decide⟩) (by decide) (by decide)
  exact ⟨h.1, h.2.1⟩

/-! ### Claim C9 : `get_comment_chain` (src/github_commenter.py lines 274-293) -/

/-- A PR review comment: id, optional parent link, author, body. -/
structure RvComment where
  id : Nat
  in_reply_to : Option Nat
  user : PyStr
  body : PyStr
deriving DecidableEq

/-- The `by_id` dict built on line 276 (`{c.get("id"): c for ...}`): on
duplicate ids the later comment wins, hence the reversed search. -/
def byId (comments : List RvComment) (i : Nat) : Option RvComment :=
  comments.reverse.find? (fun c => c.id == i)

/-- The `while current:` walk of lines 280-288, with explicit fuel — `none`
means the loop did not finish within `fuel` iterations.  A falsy
`in_reply_to` (absent or 0) ends the walk at the current comment; a parent id
missing from `by_id` ends it with `top_level` still the original comment. -/
def chainWalk (comments : List RvComment) (orig : RvComment) :
    Nat → RvComment → List RvComment → Option (List RvComment × RvComment)
  | 0, _, _ => none
  | fuel + 1, cur, acc =>
    match cur.in_reply_to with
    | none => some (acc ++ [cur], cur)
    | some p =>
      if p = 0 then some (acc ++ [cur], cur)
      else
        match byId comments p with
        | none => some (acc ++ [cur], orig)
        | some nxt => chainWalk comments orig fuel nxt (acc ++ [cur])

/-- `get_comment_chain`: run the walk, reverse the visited list into
chronological order and render `f"{login}: {body}"` lines. -/
def get_comment_chain (comments : List RvComment) (comment : RvComment) (fuel : Nat) :
    Option (PyStr × RvComment) :=
  match chainWalk comments comment fuel comment [] with
  | none => none
  | some (chain, top) =>
    some (joinLines ((chain.reverse).map (fun c => c.user ++ ':' :: ' ' :: c.body)), top)

/-- The walk finishes in finitely many steps. -/
def chainTerminates (comments : List RvComment) (comment : RvComment) : Prop :=
  ∃ fuel, (chainWalk comments comment fuel comment []).isSome = true

theorem byId_mem {comments : List RvComment} {p : Nat} {x : RvComment}
    (h : byId comments p = some x) : x ∈ comments := by
  have := List.mem_of_find?_eq_some h
  exact List.mem_reverse.mp this

theorem byId_id {comments : List RvComment} {p : Nat} {x : RvComment}
    (h : byId comments p = some x) : x.id = p := by
  have := List.find?_some (p := fun c : RvComment => c.id == p) h
  simpa using this

theorem getLast?_cons_of_ne_nil {α : Type} (a : α) (l : List α) (h : l ≠ []) :
    (a :: l).getLast? = l.getLast? := by
  rcases l with _ | ⟨b, t⟩
  · exact absurd rfl h
  · exact List.getLast?_cons_cons

theorem chainWalk_spec (comments : List RvComment) (orig : RvComment) :
    ∀ (fuel : Nat) (cur : RvComment) (acc visited : List RvComment) (top : RvComment),
      chainWalk comments orig fuel cur acc = some (visited, top) →
      ∃ tail, visited = acc ++ tail ∧ tail ≠ [] ∧ tail.head? = some cur ∧
        (∀ x ∈ tail, x = cur ∨ x ∈ comments) ∧
        ∃ last, tail.getLast? = some last ∧
          (last.in_reply_to = none ∨ last.in_reply_to = some 0 ∨
            ∃ p, last.in_reply_to = some p ∧ p ≠ 0 ∧ byId comments p = none) := by
  intro fuel
  induction fuel with
  | zero => intro cur acc visited top h; exact absurd h (by simp [chainWalk])
  | succ fuel ih =>
    intro cur acc visited top h
    rw [chainWalk] at h
    rcases hpar : cur.in_reply_to with _ | p
    · rw [hpar] at h
      simp only [Option.some.injEq, Prod.mk.injEq] at h
      obtain ⟨rfl, rfl⟩ := h
      exact ⟨[cur], rfl, by simp, rfl, fun x hx => Or.inl (List.mem_singleton.mp hx),
        cur, by simp, Or.inl hpar⟩
    · rw [hpar] at h
      dsimp only at h
      by_cases hp0 : p = 0
      · rw [if_pos hp0] at h
        simp only [Option.some.injEq, Prod.mk.injEq] at h
        obtain ⟨rfl, rfl⟩ := h
        exact ⟨[cur], rfl, by simp, rfl, fun x hx => Or.inl (List.mem_singleton.mp hx),
          cur, by simp, Or.inr (Or.inl (hp0 ▸ hpar))⟩
      · rw [if_neg hp0] at h
        rcases hfind : byId comments p with _ | nxt
        · rw [hfind] at h
          dsimp only at h
          simp only [Option.some.injEq, Prod.mk.injEq] at h
          obtain ⟨rfl, rfl⟩ := h
          exact ⟨[cur], rfl, by simp, rfl, fun x hx => Or.inl (List.mem_singleton.mp hx),
            cur, by simp, Or.inr (Or.inr ⟨p, hpar, hp0, hfind⟩)⟩
        · rw [hfind] at h
          dsimp only at h
          obtain ⟨tail, hv, htne, hthead, htmem, last, htlast, hcond⟩ :=
            ih nxt (acc ++ [cur]) visited top h
          refine ⟨cur :: tail, ?_, by simp, rfl, ?_, last, ?_, hcond⟩
          · rw [hv, List.append_assoc]
            rfl
          · intro x hx
            rcases List.mem_cons.mp hx with rfl | hx
            · exact Or.inl rfl
            · rcases htmem x hx with rfl | hxm
              · exact Or.inr (byId_mem hfind)
              · exact Or.inr hxm
          · rw [getLast?_cons_of_ne_nil cur tail htne]
            exact htlast

theorem chainWalk_terminates (comments : List RvComment)
    (hall : ∀ x ∈ comments, ∀ p, x.in_reply_to = some p → p < x.id) :
    ∀ (fuel : Nat) (cur : RvComment) (orig : RvComment) (acc : List RvComment),
      (∀ p, cur.in_reply_to = some p → p < cur.id) →
      cur.id < fuel →
      (chainWalk comments orig fuel cur acc).isSome = true := by
  intro fuel
  induction fuel with
  | zero => intro cur orig acc _ h; omega
  | succ fuel ih =>
    intro cur orig acc hcur hlt
    rw [chainWalk]
    rcases hpar : cur.in_reply_to with _ | p
    · rfl
    · dsimp only
      by_cases hp0 : p = 0
      · rw [if_pos hp0]; rfl
      · rw [if_neg hp0]
        rcases hfind : byId comments p with _ | nxt
        · rfl
        · dsimp only
          have hnmem : nxt ∈ comments := byId_mem hfind
          have hnid : nxt.id = p := byId_id hfind
          have hplt : p < cur.id := hcur p hpar
          exact ih nxt orig (acc ++ [cur]) (fun q hq => hall nxt hnmem q hq)
            (by omega)

/-- C9 counterexample: two review comments replying to each other
(`id 1 ↦ in_reply_to 2`, `id 2 ↦ in_reply_to 1`) make the backward walk cycle
forever — no amount of fuel finishes it, so `get_comment_chain` does not
terminate on this finite comment list. -/
theorem claim_C9_counterexample :
    ¬ chainTerminates
      [⟨1, some 2, str "u", str "a"⟩, ⟨2, some 1, str "u", str "b"⟩]
      ⟨1, some 2, str "u", str "a"⟩ := by
  have key : ∀ (fuel : Nat) (acc : List RvComment) (cur : RvComment),
      (cur = ⟨1, some 2, str "u", str "a"⟩ ∨ cur = ⟨2, some 1, str "u", str "b"⟩) →
      chainWalk [⟨1, some 2, str "u", str "a"⟩, ⟨2, some 1, str "u", str "b"⟩]
        ⟨1, some 2, str "u", str "a"⟩ fuel cur acc = none := by
    intro fuel
    induction fuel with
    | zero => intro acc cur _; rfl
    | succ fuel ih =>
      intro acc cur h
      rcases h with rfl | rfl
      · have hstep : chainWalk
            [⟨1, some 2, str "u", str "a"⟩, ⟨2, some 1, str "u", str "b"⟩]
            ⟨1, some 2, str "u", str "a"⟩ (fuel + 1) ⟨1, some 2, str "u", str "a"⟩ acc
            = chainWalk [⟨1, some 2, str "u", str "a"⟩, ⟨2, some 1, str "u", str "b"⟩]
              ⟨1, some 2, str "u", str "a"⟩ fuel ⟨2, some 1, str "u", str "b"⟩
              (acc ++ [⟨1, some 2, str "u", str "a"⟩]) := rfl
        rw [hstep]
        exact ih _ _ (Or.inr rfl)
      · have hstep : chainWalk
            [⟨1, some 2, str "u", str "a"⟩, ⟨2, some 1, str "u", str "b"⟩]
            ⟨1, some 2, str "u", str "a"⟩ (fuel + 1) ⟨2, some 1, str "u", str "b"⟩ acc
            = chainWalk [⟨1, some 2, str "u", str "a"⟩, ⟨2, some 1, str "u", str "b"⟩]
              ⟨1, some 2, str "u", str "a"⟩ fuel ⟨1, some 2, str "u", str "a"⟩
              (acc ++ [⟨2, some 1, str "u", str "b"⟩]) := rfl
        rw [hstep]
        exact ih _ _ (Or.inl rfl)
  intro ⟨fuel, hsome⟩
  rw [key fuel [] _ (Or.inl rfl)] at hsome
  exact absurd hsome (by decide)

/-- C9 amended: when every reply link points to an older (smaller-id) comment
— as GitHub guarantees — the walk terminates, and any finished walk visits the
triggering comment first, visits only known comments, stops at a comment with
falsy or unresolvable parent, and `get_comment_chain` renders exactly the
visited comments in reversed (chronological) order, ending with the
triggering comment. -/
theorem claim_C9 (comments : List RvComment) (comment : RvComment)
    (hall : ∀ x ∈ comments, ∀ p, x.in_reply_to = some p → p < x.id)
    (hstart : ∀ p, comment.in_reply_to = some p → p < comment.id) :
    chainTerminates comments comment ∧
    (∀ fuel visited top,
      chainWalk comments comment fuel comment [] = some (visited, top) →
      visited.head? = some comment ∧
      (visited.reverse).getLast? = some comment ∧
      (∀ x ∈ visited, x = comment ∨ x ∈ comments) ∧
      (∃ last, visited.getLast? = some last ∧
        (last.in_reply_to = none ∨ last.in_reply_to = some 0 ∨
          ∃ p, last.in_reply_to = some p ∧ p ≠ 0 ∧ byId comments p = none)) ∧
      get_comment_chain comments comment fuel
        = some (joinLines ((visited.reverse).map
            (fun c => c.user ++ ':' :: ' ' :: c.body)), top)) := by
  constructor
  · exact ⟨comment.id + 1,
      chainWalk_terminates comments hall (comment.id + 1) comment comment []
        hstart (Nat.lt_succ_self _)⟩
  · intro fuel visited top h
    obtain ⟨tail, hv, htne, hthead, htmem, last, htlast, hcond⟩ :=
      chainWalk_spec comments comment fuel comment [] visited top h
    rw [List.nil_append] at hv
    subst hv
    refine ⟨hthead, ?_, htmem, ⟨last, htlast, hcond⟩, ?_⟩
    · rw [List.getLast?_reverse]
      exact hthead
    · unfold get_comment_chain
      rw [h]

/-- Witness for C9 at a two-comment chain: the walk terminates, and a finished
walk starts at the triggering comment and renders the reversed chain. -/
theorem claim_C9_witness :
    chainTerminates [⟨3, none, str "u", str "x"⟩, ⟨5, some 3, str "u", str "y"⟩]
      ⟨5, some 3, str "u", str "y"⟩ ∧
    get_comment_chain [⟨3, none, str "u", str "x"⟩, ⟨5, some 3, str "u", str "y"⟩]
      ⟨5, some 3, str "u", str "y"⟩ 6
      = some (str "u: x\nu: y", ⟨3, none, str "u", str "x"⟩) := by
  have h := claim_C9 [⟨3, none, str "u", str "x"⟩, ⟨5, some 3, str "u", str "y"⟩]
    ⟨5, some 3, str "u", str "y"⟩
    (by
      intro x hx p hp
      rcases List.mem_cons.mp hx with rfl | hx
      · exact absurd hp (by simp)
      · rcases List.mem_cons.mp hx with rfl | hx
        · simp only [Option.some.injEq] at hp
          subst hp
          decide
        · simp at hx)
    (by
      intro p hp
      simp only [Option.some.injEq] at hp
      subst hp
      decide)
  refine ⟨h.1, ?_⟩
  have h2 := (h.2 6
    [⟨5, some 3, str "u", str "y"⟩, ⟨3, none, str "u", str "x"⟩]
    ⟨3, none, str "u", str "x"⟩ rfl).2.2.2.2
  exact h2.trans (by decide)

/-! ### `PRReviewService` (src/pr_review_service.py)

The service touches three external systems: the GitHub REST API, modelled by
an `Env` snapshot (an `Option` field is `none` when that HTTP request fails),
and two LLM tiers, modelled as `Oracles` — opaque text functions composed
with the JSON extraction of `_parse_json`, whose outputs are the parsed
values the code actually consumes.  Every LLM invocation and every publishing
call is appended to an effect trace. -/

/-- `SUMMARIZE_TAG` of github_commenter.py. -/
def SUMMARIZE_TAG : PyStr := str "<!-- auto-generated comment: pr summary -->"

/-- `COMMENT_TAG` of github_commenter.py. -/
def COMMENT_TAG : PyStr := str "<!-- auto-generated comment: pr review -->"

/-- `COMMENT_GREETING = f"{BOT_ICON} {BOT_NAME}".strip()` with the default
empty icon and default bot name. -/
def COMMENT_GREETING : PyStr := pyStrip (str " CodeRabbit")

/-- Index of the first occurrence of `pat` in `s`, if any. -/
def firstIdx? (pat : PyStr) : PyStr → Option Nat
  | [] => if pat = [] then some 0 else none
  | c :: t => if pat.isPrefixOf (c :: t) then some 0 else (firstIdx? pat t).map (· + 1)

/-- `get_content_within_tags` (lines 215-218): empty unless both tags occur;
otherwise the stripped text after the first start tag and before the next end
tag (`content.split(start,1)[1].split(end,1)[0].strip()`). -/
def get_content_within_tags (content start_tag end_tag : PyStr) : PyStr :=
  if pyIn start_tag content = true ∧ pyIn end_tag content = true then
    let after :=
      match firstIdx? start_tag content with
      | some i => content.drop (i + start_tag.length)
      | none => []
    let before :=
      match firstIdx? end_tag after with
      | some j => after.take j
      | none => after
    pyStrip before
  else []

/-- `get_reviewed_commit_ids_block` (lines 233-234). -/
def get_reviewed_commit_ids_block (summary : PyStr) : PyStr :=
  get_content_within_tags summary COMMIT_ID_START_TAG COMMIT_ID_END_TAG

/-- The fields of the `GET /pulls/{n}` response the service reads. -/
structure PRDetails where
  title : PyStr
  body : Option PyStr
  headSha : Option PyStr
  baseSha : Option PyStr
deriving DecidableEq

/-- One entry of the compare API's `files` list. -/
structure FileEntry where
  filename : Option PyStr
  additions : Nat
  deletions : Nat
  patch : Option PyStr
deriving DecidableEq

/-- The service configuration assembled in `PRReviewService.__init__`. -/
structure SvcConfig where
  review_simple_changes : Bool
  simple_change_threshold : Nat
  skip_extensions : List PyStr
  review_comment_lgtm : Bool
  max_files : Nat
  ignore_keyword : PyStr
  update_description : Bool
  hasToken : Bool
  max_comments : Nat
deriving DecidableEq

/-- One parsed review-comment item from the line-review LLM response
(a JSON dict with optional fields). -/
structure RItem where
  path : Option PyStr
  line : Option Int
  start_line : Option Int
  end_line : Option Int
  comment : Option PyStr
deriving DecidableEq

/-- One buffered inline comment (`buffer_review_comment`, lines 114-118). -/
structure BufComment where
  path : PyStr
  start_line : Int
  end_line : Int
  message : PyStr
deriving DecidableEq

/-- Observable effects: an LLM invocation (light or heavy tier) or one of the
three publishing calls (summary upsert, description update, review
submission). -/
inductive Effect where
  | llm (heavy : Bool) (tag : PyStr)
  | upsertComment (body : PyStr) (tag : PyStr)
  | updateDesc (message : PyStr)
  | submitReview (comments : List BufComment)
deriving DecidableEq

/-- The LLM tiers composed with `_parse_json` extraction, as opaque oracles:
`fileSummary path patch` is the `(summary, triage)` pair `_run_file_summary`
extracts; the four heavy functions are the text outputs of the `_run_summary`
pipeline stages; `reviewItems path short numbered` is the parsed comment list
of `_run_file_review` before normalization. -/
structure Oracles where
  fileSummary : PyStr → PyStr → PyStr × PyStr
  summarizeChanges : PyStr → PyStr
  summaryOf : PyStr → PyStr
  releaseNotes : PyStr → List PyStr
  shortSummary : PyStr → PyStr
  reviewItems : PyStr → PyStr → PyStr → List RItem

/-- The `ReviewResult` dataclass. -/
structure ReviewResult where
  summary : PyStr
  release_notes : List PyStr
  raw_summary : PyStr
  short_summary : PyStr
  review_comments : List RItem
  reviewed_sha : PyStr
  skipped : Bool
  skip_reason : PyStr
deriving DecidableEq

/-- A snapshot of the GitHub responses one reconciliation cycle sees;
`none` marks a failing request. `get_pr_details` and `compare_branches`
catch errors internally (their `none` is returned as Python `None`), while
the issue-comment and commit listings re-raise. -/
structure Env where
  prDetails : Option PRDetails
  issueComments : Option (List IComment)
  allCommits : Option (List PyStr)
  compareFiles : Option (List FileEntry)

/-- A `ReviewResult` in the skipped state. -/
def skipResult (reason sha : PyStr) : ReviewResult :=
  ⟨[], [], [], [], [], sha, true, reason⟩

/-- Python `str.lower()`. -/
def pyLower (s : PyStr) : PyStr := s.map Char.toLower

/-- Python `str.split(".")` (all components, empties kept). -/
def splitDots : PyStr → List PyStr
  | [] => [[]]
  | c :: rest =>
    if c = '.' then [] :: splitDots rest
    else
      match splitDots rest with
      | [] => [[c]]
      | l :: ls => (c :: l) :: ls

/-- The skip reason rendered by `_should_skip_review` for simple changes:
`f"simple changes (<= {self.simple_change_threshold} lines)"`. -/
def simpleReason (cfg : SvcConfig) : PyStr :=
  str "simple changes (<= " ++ pyReprNat cfg.simple_change_threshold ++ str " lines)"

/-- `_should_skip_review` (lines 152-159): simple when not forced to review
and total changed lines do not exceed the threshold; documentation-only when
every extension (`split(".")[-1].lower()` of each truthy filename) is in the
skip list and some file has a name. -/
def should_skip_review (cfg : SvcConfig) (files : List FileEntry) : Bool × PyStr :=
  let total_changes := (files.map (fun f => f.additions + f.deletions)).sum
  let extensions := ((files.filterMap (fun f => f.filename)).filter (· ≠ [])).map
    (fun p => pyLower ((splitDots p).getLastD []))
  if cfg.review_simple_changes = false ∧ total_changes ≤ cfg.simple_change_threshold then
    (true, simpleReason cfg)
  else if extensions ≠ [] ∧ extensions.all (· ∈ cfg.skip_extensions) = true then
    (true, str "documentation-only changes")
  else (false, [])

/-- Normalization of one parsed review item (`_run_file_review` lines
237-246): default the path, promote `line` to `end_line`, default
`start_line` to `end_line`. -/
def normalizeItem (path : PyStr) (item : RItem) : RItem :=
  let i1 := if item.path = none ∨ item.path = some [] then
      { item with path := some path } else item
  let i2 := if i1.line ≠ none ∧ i1.end_line = none then
      { i1 with end_line := i1.line } else i1
  if i2.start_line = none ∧ i2.end_line ≠ none then
    { i2 with start_line := i2.end_line } else i2

/-- `_run_file_summary`: one light-tier invocation, result parsed by the
oracle. -/
def run_file_summary (o : Oracles) (path patch : PyStr) :
    (PyStr × PyStr) × List Effect :=
  (o.fileSummary path patch, [.llm false path])

/-- `_run_summary` (lines 204-221): merge changesets (falling back to the
input when the merge output is empty), then derive summary, release notes and
short summary; summary and short summary are stripped.  Four heavy-tier
invocations. -/
def run_summary (o : Oracles) (raw_summary : PyStr) :
    (PyStr × List PyStr × PyStr) × List Effect :=
  let combined := o.summarizeChanges raw_summary
  let raw2 := if combined ≠ [] then combined else raw_summary
  ((pyStrip (o.summaryOf raw2), o.releaseNotes raw2, pyStrip (o.shortSummary raw2)),
   [.llm true (str "summarize_changes"), .llm true (str "summary"),
    .llm true (str "release_notes"), .llm true (str "short_summary")])

/-- `_run_file_review` (lines 223-248): no invocation when the numbered hunks
strip to empty; otherwise one heavy-tier invocation whose parsed items are
normalized. -/
def run_file_review (o : Oracles) (path patch short_summary : PyStr) :
    List RItem × List Effect :=
  let numbered_hunks := extract_numbered_hunks patch
  if pyStrip numbered_hunks = [] then ([], [])
  else ((o.reviewItems path short_summary numbered_hunks).map (normalizeItem path),
        [.llm true path])

/-- The per-file summary loop of `review_pr` (lines 283-295): skip files with
falsy filename or patch, skip extensions on the skip list, otherwise invoke
the file summary; stop once `max_files > 0` summaries are collected. -/
def summaryLoop (cfg : SvcConfig) (o : Oracles) :
    List FileEntry → List (PyStr × PyStr × PyStr) → List Effect →
    List (PyStr × PyStr × PyStr) × List Effect
  | [], summaries, effs => (summaries, effs)
  | f :: rest, summaries, effs =>
    match f.filename, f.patch with
    | some path, some patch =>
      if path = [] ∨ patch = [] then summaryLoop cfg o rest summaries effs
      else
        let ext := if pyIn (str ".") path = true then
            pyLower ((splitDots path).getLastD []) else []
        if ext ∈ cfg.skip_extensions then summaryLoop cfg o rest summaries effs
        else
          let sres := run_file_summary o path patch
          let summaries2 := summaries ++ [(path, sres.1.1, sres.1.2)]
          let effs2 := effs ++ sres.2
          if 0 < cfg.max_files ∧ cfg.max_files ≤ summaries2.length then (summaries2, effs2)
          else summaryLoop cfg o rest summaries2 effs2
    | _, _ => summaryLoop cfg o rest summaries effs

/-- The per-file line-review loop of `review_pr` (lines 313-324): skip files
with falsy filename or patch; under a simple classification (and no forced
review) skip every file; skip files triaged APPROVED; otherwise run the file
review and collect its comments. -/
def reviewLoop (cfg : SvcConfig) (o : Oracles) (summaries : List (PyStr × PyStr × PyStr))
    (short_summary simple_reason : PyStr) :
    List FileEntry → List RItem → List Effect → List RItem × List Effect
  | [], comments, effs => (comments, effs)
  | f :: rest, comments, effs =>
    match f.filename, f.patch with
    | some path, some patch =>
      if path = [] ∨ patch = [] then
        reviewLoop cfg o summaries short_summary simple_reason rest comments effs
      else
        let triage := ((summaries.find? (fun x => x.1 == path)).map
          (fun x => x.2.2)).getD (str "NEEDS_REVIEW")
        if cfg.review_simple_changes = false ∧ simple_reason ≠ [] then
          reviewLoop cfg o summaries short_summary simple_reason rest comments effs
        else if cfg.review_simple_changes = false ∧ triage = str "APPROVED" then
          reviewLoop cfg o summaries short_summary simple_reason rest comments effs
        else
          let r := run_file_review o path patch short_summary
          reviewLoop cfg o summaries short_summary simple_reason rest
            (comments ++ r.1) (effs ++ r.2)
    | _, _ => reviewLoop cfg o summaries short_summary simple_reason rest comments effs

/-- `review_pr` (lines 250-335).  Derived data that influences no branch of
the claims (the compare base) is computed as in the source; the one compare
request this cycle makes is answered by `env.compareFiles`.  `Except.error`
models an uncaught exception escaping `review_pr`. -/
def review_pr (cfg : SvcConfig) (o : Oracles) (env : Env) :
    Except Unit (ReviewResult × List Effect) :=
  match env.prDetails with
  | none => .ok (skipResult (str "failed to fetch PR details") [], [])
  | some pr =>
    let description := pr.body.getD []
    if cfg.ignore_keyword ≠ [] ∧ pyIn cfg.ignore_keyword description = true then
      .ok (skipResult (str "ignored by keyword") [], [])
    else
      match env.issueComments with
      | none => .error ()
      | some comments =>
        let existing_body := ((comments.find? (fun c => pyIn SUMMARIZE_TAG c.body)).map
          IComment.body).getD []
        let reviewed_ids := get_reviewed_commit_ids (get_reviewed_commit_ids_block existing_body)
        match (if cfg.hasToken then env.allCommits else some []) with
        | none => .error ()
        | some all_commits =>
          let highest_reviewed := get_highest_reviewed_commit_id all_commits reviewed_ids
          let _compare_base : Option PyStr :=
            if highest_reviewed ≠ [] then some highest_reviewed else pr.baseSha
          match env.compareFiles with
          | none => .ok (skipResult (str "failed to compare commits") (pr.headSha.getD []), [])
          | some files =>
            if files = [] then
              .ok (skipResult (str "no files to review") (pr.headSha.getD []), [])
            else
              let sk := should_skip_review cfg files
              let skip_reviews := sk.1 = true ∧ sk.2 = str "documentation-only changes"
              let simple_reason := if sk.1 = true then sk.2 else []
              let sl := summaryLoop cfg o files [] []
              let raw_summary := joinLines (sl.1.map (fun x => x.1 ++ ':' :: ' ' :: x.2.1))
              let rs := run_summary o raw_summary
              if skip_reviews then
                .ok (⟨rs.1.1, rs.1.2.1, raw_summary, rs.1.2.2, [],
                      pr.headSha.getD [], false, []⟩, sl.2 ++ rs.2)
              else
                let rl := reviewLoop cfg o sl.1 rs.1.2.2 simple_reason files [] []
                .ok (⟨rs.1.1, rs.1.2.1, raw_summary, rs.1.2.2, rl.1,
                      pr.headSha.getD [], false, []⟩, sl.2 ++ rs.2 ++ rl.2)

/-- `RAW_SUMMARY_START_TAG` / `..._END_TAG` / short-summary tags. -/
def RAW_SUMMARY_START_TAG : PyStr := str "<!-- auto-generated: raw summary start -->\n<!--"

/-- End tag of the hidden raw-summary block. -/
def RAW_SUMMARY_END_TAG : PyStr := str "-->\n<!-- auto-generated: raw summary end -->"

/-- Start tag of the hidden short-summary block. -/
def SHORT_SUMMARY_START_TAG : PyStr := str "<!-- auto-generated: short summary start -->\n<!--"

/-- End tag of the hidden short-summary block. -/
def SHORT_SUMMARY_END_TAG : PyStr := str "-->\n<!-- auto-generated: short summary end -->"

/-- `_build_summary_comment` (lines 337-353). -/
def build_summary_comment (summary : PyStr) (release_notes : List PyStr)
    (raw_summary short_summary commit_id_block : PyStr) : PyStr :=
  let notes := if release_notes ≠ [] then
      joinLines (release_notes.map (fun n => '-' :: ' ' :: n))
    else str "- (none)"
  SUMMARIZE_TAG ++ str "\n" ++
  str "### Summary\n\n" ++ summary ++ str "\n\n" ++
  str "### Release Notes\n" ++ notes ++ str "\n\n" ++
  RAW_SUMMARY_START_TAG ++ str "\n" ++ raw_summary ++ str "\n" ++ RAW_SUMMARY_END_TAG
    ++ str "\n" ++
  SHORT_SUMMARY_START_TAG ++ str "\n" ++ short_summary ++ str "\n" ++ SHORT_SUMMARY_END_TAG
    ++ str "\n\n" ++
  commit_id_block ++ str "\n"

/-- `buffer_review_comment` (lines 114-118): wrap the message with greeting
and tag and record the line range. -/
def buffer_review_comment (path : PyStr) (start_line end_line : Int)
    (message : PyStr) : BufComment :=
  ⟨path, start_line, end_line,
    COMMENT_GREETING ++ str "\n\n" ++ message ++ str "\n\n" ++ COMMENT_TAG⟩

/-- The buffering loop of `post_review` (lines 388-397), applied to the
(already truncated) comment list: drop items with falsy path or message or
non-positive end line, drop LGTM messages unless enabled, otherwise buffer
with `start_line or end_line` as the start. -/
def bufferComments (cfg : SvcConfig) : List RItem → List BufComment
  | [] => []
  | c :: rest =>
    let path := c.path.getD []
    let start_line := c.start_line.getD 0
    let end_line := c.end_line.getD 0
    let message := c.comment.getD []
    if path = [] ∨ message = [] ∨ end_line ≤ 0 then bufferComments cfg rest
    else if cfg.review_comment_lgtm = false ∧ pyIn (str "LGTM") message = true then
      bufferComments cfg rest
    else
      buffer_review_comment path (if start_line = 0 then end_line else start_line)
        end_line message :: bufferComments cfg rest

/-- `post_review` (lines 355-400): publish nothing when skipped or without a
token; otherwise upsert the summary comment, optionally update the
description, and — when the head commit id is truthy and comments were
collected — buffer at most `max_comments` of them and submit one review. -/
def post_review (cfg : SvcConfig) (o : Oracles) (env : Env) :
    Except Unit (ReviewResult × List Effect) :=
  match review_pr cfg o env with
  | .error e => .error e
  | .ok (result, effs) =>
    if result.skipped = true then .ok (result, effs)
    else if cfg.hasToken = false then .ok (result, effs)
    else
      let commit_id : Option PyStr := (env.prDetails.map PRDetails.headSha).getD none
      match env.issueComments with
      | none => .error ()
      | some comments =>
        let existing_body := ((comments.find? (fun c => pyIn SUMMARIZE_TAG c.body)).map
          IComment.body).getD []
        let commit_id_block :=
          add_reviewed_commit_id (get_reviewed_commit_ids_block existing_body)
            result.reviewed_sha
        let summary_body := build_summary_comment result.summary result.release_notes
          result.raw_summary result.short_summary commit_id_block
        let effs1 := effs ++ [.upsertComment summary_body SUMMARIZE_TAG]
        let effs2 := if cfg.update_description = true ∧ result.release_notes ≠ [] then
            effs1 ++ [.updateDesc (joinLines (result.release_notes.map
              (fun n => '-' :: ' ' :: n)))]
          else effs1
        match commit_id with
        | none => .ok (result, effs2)
        | some cid =>
          if cid ≠ [] ∧ result.review_comments ≠ [] then
            .ok (result, effs2 ++ [.submitReview
              (bufferComments cfg (result.review_comments.take cfg.max_comments))])
          else .ok (result, effs2)

/-! ### Claims C6, C7, C8 -/

theorem simpleReason_ne_nil (cfg : SvcConfig) : simpleReason cfg ≠ [] := by
  intro h
  have hs : (simpleReason cfg).head? = some 's' := rfl
  rw [h] at hs
  exact absurd hs (by decide)

theorem docReason_ne_simpleReason (cfg : SvcConfig) :
    str "documentation-only changes" ≠ simpleReason cfg := by
  intro h
  have hd : (str "documentation-only changes").head? = some 'd' := rfl
  have hs : (simpleReason cfg).head? = some 's' := rfl
  rw [h, hs] at hd
  exact absurd hd (by decide)

theorem should_skip_simple_iff (cfg : SvcConfig) (files : List FileEntry) :
    should_skip_review cfg files = (true, simpleReason cfg) ↔
      (cfg.review_simple_changes = false ∧
        (files.map (fun f => f.additions + f.deletions)).sum ≤ cfg.simple_change_threshold) := by
  unfold should_skip_review
  by_cases h1 : cfg.review_simple_changes = false ∧
      (files.map (fun f => f.additions + f.deletions)).sum ≤ cfg.simple_change_threshold
  · rw [if_pos h1]
    exact ⟨fun _ => h1, fun _ => rfl⟩
  · rw [if_neg h1]
    constructor
    · intro h
      by_cases h2 : (((files.filterMap (fun f => f.filename)).filter (· ≠ [])).map
          (fun p => pyLower ((splitDots p).getLastD []))) ≠ [] ∧
          (((files.filterMap (fun f => f.filename)).filter (· ≠ [])).map
            (fun p => pyLower ((splitDots p).getLastD []))).all
            (· ∈ cfg.skip_extensions) = true
      · rw [if_pos h2] at h
        exact absurd (congrArg Prod.snd h) (docReason_ne_simpleReason cfg)
      · rw [if_neg h2] at h
        have hf := congrArg Prod.fst h
        simp at hf
    · intro h
      exact absurd h h1

theorem reviewLoop_simple (cfg : SvcConfig) (o : Oracles)
    (summaries : List (PyStr × PyStr × PyStr)) (short simple : PyStr)
    (hrsc : cfg.review_simple_changes = false) (hsr : simple ≠ []) :
    ∀ (files : List FileEntry) (comments : List RItem) (effs : List Effect),
      reviewLoop cfg o summaries short simple files comments effs = (comments, effs) := by
  intro files
  induction files with
  | nil => intro c e; rfl
  | cons f rest ih =>
    intro c e
    rw [reviewLoop]
    rcases f.filename with _ | path
    · exact ih c e
    · rcases f.patch with _ | patch
      · exact ih c e
      · dsimp only
        by_cases hpp : path = [] ∨ patch = []
        · rw [if_pos hpp]
          exact ih c e
        · rw [if_neg hpp, if_pos ⟨hrsc, hsr⟩]
          exact ih c e

/-- C6 counterexample: with threshold 20, `review_simple_changes = False` and
a single file of exactly 20 changed lines, the code classifies the change as
simple although the total is not strictly below the threshold — the boundary
is `<=`, not `<` as the claim states. -/
theorem claim_C6_counterexample :
    should_skip_review ⟨false, 20, [str "md"], false, 0, [], true, true, 20⟩
        [⟨some (str "a.py"), 20, 0, some (str "+x")⟩]
      = (true, simpleReason ⟨false, 20, [str "md"], false, 0, [], true, true, 20⟩) ∧
    ¬ (([(⟨some (str "a.py"), 20, 0, some (str "+x")⟩ : FileEntry)].map
        (fun f => f.additions + f.deletions)).sum < 20) := by
  constructor
  · decide
  · decide

/-- C6 amended: the change set is classified simple exactly when
`review_simple_changes` is off and the total of additions plus deletions is
at most (not strictly below) the threshold; under that classification the
line-review loop contributes no inline comment while the summary pipeline
still runs. -/
theorem claim_C6 :
    (∀ (cfg : SvcConfig) (files : List FileEntry),
      should_skip_review cfg files = (true, simpleReason cfg) ↔
        (cfg.review_simple_changes = false ∧
          (files.map (fun f => f.additions + f.deletions)).sum
            ≤ cfg.simple_change_threshold)) ∧
    (∀ (cfg : SvcConfig) (o : Oracles) (env : Env) (pr : PRDetails)
        (cs : List IComment) (allc : List PyStr) (files : List FileEntry),
      env.prDetails = some pr →
      ¬(cfg.ignore_keyword ≠ [] ∧ pyIn cfg.ignore_keyword (pr.body.getD []) = true) →
      env.issueComments = some cs →
      (if cfg.hasToken = true then env.allCommits else some []) = some allc →
      env.compareFiles = some files →
      files ≠ [] →
      cfg.review_simple_changes = false →
      (files.map (fun f => f.additions + f.deletions)).sum ≤ cfg.simple_change_threshold →
      ∃ r effs, review_pr cfg o env = .ok (r, effs) ∧
        r.skipped = false ∧
        r.review_comments = [] ∧
        Effect.llm true (str "summary") ∈ effs) := by
  refine ⟨should_skip_simple_iff, ?_⟩
  intro cfg o env pr cs allc files hpr hig hcs hac hcmp hfne hrsc htot
  have hssr : should_skip_review cfg files = (true, simpleReason cfg) :=
    (should_skip_simple_iff cfg files).mpr ⟨hrsc, htot⟩
  unfold review_pr
  rw [hpr]
  dsimp only
  rw [if_neg hig, hcs]
  dsimp only
  rw [hac]
  dsimp only
  rw [hcmp]
  dsimp only
  rw [if_neg hfne, hssr]
  dsimp only
  rw [if_neg (fun hand : true = true ∧ simpleReason cfg = str "documentation-only changes" =>
    docReason_ne_simpleReason cfg hand.2.symm)]
  rw [if_pos rfl]
  rw [reviewLoop_simple cfg o _ _ _ hrsc (simpleReason_ne_nil cfg) files [] []]
  refine ⟨_, _, rfl, rfl, rfl, ?_⟩
  simp [run_summary]

/-- C7: when the compare of the reconciliation base against the head returns
an empty file list, `review_pr` terminates skipped with reason
"no files to review" carrying the head commit id, with an empty effect trace
— no LLM invocation and no publish call — and `post_review` returns that
same skipped result without publishing anything. -/
theorem claim_C7 (cfg : SvcConfig) (o : Oracles) (env : Env) (pr : PRDetails)
    (cs : List IComment) (allc : List PyStr)
    (hpr : env.prDetails = some pr)
    (hig : ¬(cfg.ignore_keyword ≠ [] ∧ pyIn cfg.ignore_keyword (pr.body.getD []) = true))
    (hcs : env.issueComments = some cs)
    (hac : (if cfg.hasToken = true then env.allCommits else some []) = some allc)
    (hcmp : env.compareFiles = some []) :
    review_pr cfg o env
      = .ok (skipResult (str "no files to review") (pr.headSha.getD []), []) ∧
    post_review cfg o env
      = .ok (skipResult (str "no files to review") (pr.headSha.getD []), []) := by
  have hrev : review_pr cfg o env
      = .ok (skipResult (str "no files to review") (pr.headSha.getD []), []) := by
    unfold review_pr
    rw [hpr]
    dsimp only
    rw [if_neg hig, hcs]
    dsimp only
    rw [hac]
    dsimp only
    rw [hcmp]
    dsimp only
    rw [if_pos rfl]
  refine ⟨hrev, ?_⟩
  unfold post_review
  rw [hrev]
  dsimp only
  rw [if_pos (show (skipResult (str "no files to review")
    (pr.headSha.getD [])).skipped = true from rfl)]

/-- C8 counterexample: with PR details fetched successfully but the
issue-comment listing failing, `review_pr` raises (models the uncaught
exception from `_request` through `find_issue_comment_with_tag`) instead of
returning a skipped `ReviewResult`. -/
theorem claim_C8_counterexample :
    review_pr ⟨false, 20, [str "md"], false, 0, [], true, true, 20⟩
      ⟨fun _ _ => ([], []), fun _ => [], fun _ => [], fun _ => [], fun _ => [],
        fun _ _ _ => []⟩
      ⟨some ⟨str "t", none, some (str "h"), some (str "b")⟩, none, some [], some []⟩
      = .error () := rfl

/-- C8 amended: a failing PR-details fetch or a failing diff comparison makes
`review_pr` return a skipped result with the corresponding reason and no
effects; but a failing issue-comment listing, or a failing commit listing
when a token is configured, escapes `review_pr` as an exception. -/
theorem claim_C8 (cfg : SvcConfig) (o : Oracles) (env : Env) :
    (env.prDetails = none →
        review_pr cfg o env
          = .ok (skipResult (str "failed to fetch PR details") [], [])) ∧
    (∀ pr allc, env.prDetails = some pr →
        ¬(cfg.ignore_keyword ≠ [] ∧ pyIn cfg.ignore_keyword (pr.body.getD []) = true) →
        env.issueComments ≠ none →
        (if cfg.hasToken = true then env.allCommits else some []) = some allc →
        env.compareFiles = none →
        review_pr cfg o env
          = .ok (skipResult (str "failed to compare commits") (pr.headSha.getD []), [])) ∧
    (∀ pr, env.prDetails = some pr →
        ¬(cfg.ignore_keyword ≠ [] ∧ pyIn cfg.ignore_keyword (pr.body.getD []) = true) →
        env.issueComments = none →
        review_pr cfg o env = .error ()) ∧
    (∀ pr cs, env.prDetails = some pr →
        ¬(cfg.ignore_keyword ≠ [] ∧ pyIn cfg.ignore_keyword (pr.body.getD []) = true) →
        env.issueComments = some cs →
        cfg.hasToken = true →
        env.allCommits = none →
        review_pr cfg o env = .error ()) := by
  refine ⟨?_, ?_, ?_, ?_⟩
  · intro h
    unfold review_pr
    rw [h]
  · intro pr allc hpr hig hcs hac hcmp
    obtain ⟨cs, hcs'⟩ := Option.ne_none_iff_exists'.mp hcs
    unfold review_pr
    rw [hpr]
    dsimp only
    rw [if_neg hig, hcs']
    dsimp only
    rw [hac]
    dsimp only
    rw [hcmp]
  · intro pr hpr hig hcs
    unfold review_pr
    rw [hpr]
    dsimp only
    rw [if_neg hig, hcs]
  · intro pr cs hpr hig hcs htok hal
    unfold review_pr
    rw [hpr]
    dsimp only
    rw [if_neg hig, hcs]
    dsimp only
    rw [if_pos htok, hal]

/-! ### Claim C10 : comment buffering in `post_review` -/

/-- A collected review comment survives the buffering filter when its path
and message are nonempty, its end line is positive, and it is not an LGTM
message while LGTM comments are disabled. -/
def keepComment (cfg : SvcConfig) (c : RItem) : Bool :=
  decide (¬(c.path.getD [] = [] ∨ c.comment.getD [] = [] ∨ c.end_line.getD 0 ≤ 0) ∧
    ¬(cfg.review_comment_lgtm = false ∧ pyIn (str "LGTM") (c.comment.getD []) = true))

/-- The buffered form of a surviving comment. -/
def bufOf (c : RItem) : BufComment :=
  buffer_review_comment (c.path.getD [])
    (if c.start_line.getD 0 = 0 then c.end_line.getD 0 else c.start_line.getD 0)
    (c.end_line.getD 0) (c.comment.getD [])

theorem bufferComments_eq (cfg : SvcConfig) :
    ∀ items : List RItem,
      bufferComments cfg items = (items.filter (keepComment cfg)).map bufOf := by
  intro items
  induction items with
  | nil => rfl
  | cons c rest ih =>
    rw [bufferComments]
    by_cases h1 : c.path.getD [] = [] ∨ c.comment.getD [] = [] ∨ c.end_line.getD 0 ≤ 0
    · rw [if_pos h1, ih, List.filter_cons_of_neg]
      simp only [keepComment, decide_eq_true_eq]
      intro hand
      exact hand.1 h1
    · rw [if_neg h1]
      by_cases h2 : cfg.review_comment_lgtm = false ∧
          pyIn (str "LGTM") (c.comment.getD []) = true
      · rw [if_pos h2, ih, List.filter_cons_of_neg]
        simp only [keepComment, decide_eq_true_eq]
        intro hand
        exact hand.2 h2
      · rw [if_neg h2, ih, List.filter_cons_of_pos, List.map_cons]
        · rfl
        · simp only [keepComment, decide_eq_true_eq]
          exact ⟨h1, h2⟩

/-- C10: when `post_review` publishes inline comments (head commit id truthy,
comments collected), the single submitted review carries exactly the
buffered comments: the first `max_comments` collected items, in collection
order, minus those with empty path, empty message, non-positive end line, or
an LGTM message while LGTM comments are disabled; at most `max_comments`
comments are submitted. -/
theorem claim_C10 (cfg : SvcConfig) (o : Oracles) (env : Env)
    (r : ReviewResult) (effs : List Effect) (pr : PRDetails) (cid : PyStr)
    (cs : List IComment)
    (hrun : review_pr cfg o env = .ok (r, effs))
    (hskip : r.skipped = false)
    (htok : cfg.hasToken = true)
    (hpr : env.prDetails = some pr)
    (hsha : pr.headSha = some cid)
    (hcid : cid ≠ [])
    (hcm : r.review_comments ≠ [])
    (hcs : env.issueComments = some cs) :
    ∃ pubEffs, post_review cfg o env = .ok (r, pubEffs) ∧
      pubEffs.getLast? = some (.submitReview
        (((r.review_comments.take cfg.max_comments).filter (keepComment cfg)).map bufOf)) ∧
      (((r.review_comments.take cfg.max_comments).filter (keepComment cfg)).map
        bufOf).length ≤ cfg.max_comments ∧
      (∀ b ∈ ((r.review_comments.take cfg.max_comments).filter (keepComment cfg)).map bufOf,
        ∃ c2 ∈ r.review_comments.take cfg.max_comments,
          keepComment cfg c2 = true ∧ b = bufOf c2) := by
  unfold post_review
  rw [hrun]
  dsimp only
  rw [hskip]
  rw [if_neg (by decide : ¬ (false = true)), if_neg (by rw [htok]; decide), hcs]
  dsimp only
  rw [hpr]
  simp only [Option.map_some', Option.getD_some]
  rw [hsha]
  dsimp only
  rw [if_pos ⟨hcid, hcm⟩, bufferComments_eq]
  refine ⟨_, rfl, ?_, ?_, ?_⟩
  · rw [List.getLast?_concat]
  · calc (((r.review_comments.take cfg.max_comments).filter (keepComment cfg)).map
        bufOf).length
        = ((r.review_comments.take cfg.max_comments).filter (keepComment cfg)).length :=
          List.length_map _ _
      _ ≤ (r.review_comments.take cfg.max_comments).length := List.length_filter_le _ _
      _ ≤ cfg.max_comments := List.length_take_le _ _
  · intro b hb
    obtain ⟨c2, hc2, rfl⟩ := List.mem_map.mp hb
    exact ⟨c2, (List.mem_filter.mp hc2).1, (List.mem_filter.mp hc2).2, rfl⟩

/-- A trivial LLM oracle (empty outputs everywhere). -/
def oracle0 : Oracles :=
  ⟨fun _ _ => ([], []), fun _ => [], fun _ => [], fun _ => [], fun _ => [],
   fun _ _ _ => []⟩

/-- Witness for C6: threshold 20, 15 changed lines, one Python file —
classified simple, review loop contributes nothing, summary pipeline runs. -/
theorem claim_C6_witness :
    should_skip_review ⟨false, 20, [str "md"], false, 0, [], true, true, 20⟩
        [⟨some (str "a.py"), 10, 5, some (str "+x")⟩]
      = (true, simpleReason ⟨false, 20, [str "md"], false, 0, [], true, true, 20⟩) ∧
    (∃ r effs,
      review_pr ⟨false, 20, [str "md"], false, 0, [], true, true, 20⟩ oracle0
          ⟨some ⟨str "t", none, some (str "h"), some (str "b")⟩, some [], some [],
            some [⟨some (str "a.py"), 10, 5, some (str "+x")⟩]⟩
        = .ok (r, effs) ∧
      r.skipped = false ∧ r.review_comments = [] ∧
      Effect.llm true (str "summary") ∈ effs) := by
  constructor
  · exact (claim_C6.1 _ _).mpr ⟨rfl, by decide⟩
  · exact claim_C6.2 ⟨false, 20, [str "md"], false, 0, [], true, true, 20⟩ oracle0
      ⟨some ⟨str "t", none, some (str "h"), some (str "b")⟩, some [], some [],
        some [⟨some (str "a.py"), 10, 5, some (str "+x")⟩]⟩
      ⟨str "t", none, some (str "h"), some (str "b")⟩ [] []
      [⟨some (str "a.py"), 10, 5, some (str "+x")⟩]
      rfl (by decide) rfl rfl rfl (by decide) rfl (by decide)

/-- Witness for C7: an empty compare yields the skipped result with no
effects from both `review_pr` and `post_review`. -/
theorem claim_C7_witness :
    review_pr ⟨false, 20, [str "md"], false, 0, [], true, true, 20⟩ oracle0
        ⟨some ⟨str "t", none, some (str "h"), some (str "b")⟩, some [], some [], some []⟩
      = .ok (skipResult (str "no files to review") (str "h"), []) ∧
    post_review ⟨false, 20, [str "md"], false, 0, [], true, true, 20⟩ oracle0
        ⟨some ⟨str "t", none, some (str "h"), some (str "b")⟩, some [], some [], some []⟩
      = .ok (skipResult (str "no files to review") (str "h"), []) := by
  exact claim_C7 ⟨false, 20, [str "md"], false, 0, [], true, true, 20⟩ oracle0
    ⟨some ⟨str "t", none, some (str "h"), some (str "b")⟩, some [], some [], some []⟩
    ⟨str "t", none, some (str "h"), some (str "b")⟩ [] []
    rfl (by decide) rfl rfl rfl

/-- Witness for C8: a missing-details fetch and a failing compare both yield
skipped results; a failing comment listing yields an exception. -/
theorem claim_C8_witness :
    review_pr ⟨false, 20, [], false, 0, [], true, true, 20⟩ oracle0
        ⟨none, some [], some [], some []⟩
      = .ok (skipResult (str "failed to fetch PR details") [], []) ∧
    review_pr ⟨false, 20, [], false, 0, [], true, true, 20⟩ oracle0
        ⟨some ⟨str "t", none, some (str "h"), some (str "b")⟩, some [], some [], none⟩
      = .ok (skipResult (str "failed to compare commits") (str "h"), []) ∧
    review_pr ⟨false, 20, [], false, 0, [], true, true, 20⟩ oracle0
        ⟨some ⟨str "t", none, some (str "h"), some (str "b")⟩, some [], none, some []⟩
      = .error () := by
  refine ⟨?_, ?_, ?_⟩
  · exact (claim_C8 _ oracle0 ⟨none, some [], some [], some []⟩).1 rfl
  · exact (claim_C8 _ oracle0
      ⟨some ⟨str "t", none, some (str "h"), some (str "b")⟩, some [], some [], none⟩).2.1
      ⟨str "t", none, some (str "h"), some (str "b")⟩ [] rfl (by decide) (by decide) rfl rfl
  · exact (claim_C8 _ oracle0
      ⟨some ⟨str "t", none, some (str "h"), some (str "b")⟩, some [], none, some []⟩).2.2.2
      ⟨str "t", none, some (str "h"), some (str "b")⟩ [] rfl (by decide) rfl rfl rfl

/-- Review-service configuration used by the C10 witness: forced review of
simple changes, LGTM comments disabled, up to 20 buffered comments. -/
def cfgW : SvcConfig := ⟨true, 0, [], false, 0, [], false, true, 20⟩

/-- Oracle used by the C10 witness: the line review returns one valid item
and one item with a non-positive end line. -/
def oracleW : Oracles :=
  ⟨fun _ _ => (str "s", str "NEEDS_REVIEW"), fun _ => [], fun _ => str "sum",
   fun _ => [], fun _ => str "short",
   fun _ _ _ => [⟨some (str "a.py"), none, some 1, some 2, some (str "fix")⟩,
                 ⟨some (str "a.py"), none, some 1, some 0, some (str "bad")⟩]⟩

/-- Environment used by the C10 witness. -/
def envW : Env :=
  ⟨some ⟨str "t", none, some (str "h"), some (str "b")⟩, some [], some [],
   some [⟨some (str "a.py"), 3, 0, some (str "+x")⟩]⟩

/-- The review result the C10 witness environment produces. -/
def rW : ReviewResult :=
  ⟨str "sum", [], str "a.py: s", str "short",
   [⟨some (str "a.py"), none, some 1, some 2, some (str "fix")⟩,
    ⟨some (str "a.py"), none, some 1, some 0, some (str "bad")⟩],
   str "h", false, []⟩

/-- Witness for C10: of the two collected comments the one with end line 0 is
dropped and only the valid one is submitted. -/
theorem claim_C10_witness :
    ∃ pubEffs, post_review cfgW oracleW envW = .ok (rW, pubEffs) ∧
      pubEffs.getLast? = some (.submitReview
        (((rW.review_comments.take cfgW.max_comments).filter (keepComment cfgW)).map
          bufOf)) ∧
      (((rW.review_comments.take cfgW.max_comments).filter (keepComment cfgW)).map
        bufOf).length ≤ cfgW.max_comments := by
  obtain ⟨p, h1, h2, h3, _⟩ := claim_C10 cfgW oracleW envW rW
    [.llm false (str "a.py"), .llm true (str "summarize_changes"),
     .llm true (str "summary"), .llm true (str "release_notes"),
     .llm true (str "short_summary"), .llm true (str "a.py")]
    ⟨str "t", none, some (str "h"), some (str "b")⟩ (str "h") []
    rfl rfl rfl rfl rfl (by decide) (by decide) rfl
  exact ⟨p, h1, h2, h3⟩
